import Mathlib

/-!
Verification of the in-memory multi-index event store (`Repository.ts`) of the
welshman repository: the data model, the `publish` index-maintenance engine,
the tombstone (`deletes`) table, and the `query` evaluator.  Helper functions
that live outside the provided sources (`getAddress`, `matchFilter`, `EPOCH`,
list utilities) are modelled from the specification's words; everything else
is translated from `src/packages/util/src/Repository.ts`.
-/

namespace Welshman

/-- Configuration the store depends on: which event kinds are replaceable
(`isReplaceable` from `Events.ts`, a function of the kind) and the deletion
kind constant (`DELETE` from `Kinds.ts`).  Both are outside the provided
sources; the spec only says replaceability is a property of the kind and that
the deletion kind is specially recognized, so they are kept abstract here. -/
structure Config where
  isReplaceable : Nat → Bool
  DELETE : Nat

/-- An event as described in the spec's data model: `id`, `pubkey`,
`created_at` (integer seconds), `kind`, `tags` (sequence of string
sequences), and an optional wrapper id (`wrap.id` is all the store reads). -/
structure Event where
  id : String
  pubkey : String
  created_at : Nat
  kind : Nat
  tags : List (List String)
  wrap : Option String
  deriving DecidableEq, Repr

/-- Association-list model of a JS `Map`: lookup finds the first binding. -/
def mapGet {κ α : Type} [DecidableEq κ] : List (κ × α) → κ → Option α
  | [], _ => none
  | p :: m, k => if p.1 = k then some p.2 else mapGet m k

/-- `Map.set`: replace the first binding of the key in place, else append. -/
def mapSet {κ α : Type} [DecidableEq κ] : List (κ × α) → κ → α → List (κ × α)
  | [], k, v => [(k, v)]
  | p :: m, k, v => if p.1 = k then (k, v) :: m else p :: mapSet m k v

/-- `Map.values()` in insertion order. -/
def mapValues {κ α : Type} (m : List (κ × α)) : List α := m.map Prod.snd

/-- Decimal digit characters, used to render an event kind inside an address. -/
def digitChar : Nat → Char
  | 0 => '0'
  | 1 => '1'
  | 2 => '2'
  | 3 => '3'
  | 4 => '4'
  | 5 => '5'
  | 6 => '6'
  | 7 => '7'
  | 8 => '8'
  | _ => '9'

def digitVal (c : Char) : Nat := c.toNat - 48

/-- Fuel-driven decimal rendering of a natural number (structural recursion so
that concrete instances reduce in the kernel). -/
def natCharsAux : Nat → Nat → List Char
  | 0, _ => []
  | fuel + 1, n =>
    if n < 10 then [digitChar n] else natCharsAux fuel (n / 10) ++ [digitChar (n % 10)]

def natChars (n : Nat) : List Char := natCharsAux (n + 1) n

def natStr (n : Nat) : String := String.mk (natChars n)

/-- Modelled from the spec: the `d`-tag identifier of an event — the second
element of the first tag whose first element is `"d"`, empty when absent
(`getAddress` and the identifier helper live in `Address.ts`, which is not
among the provided sources). -/
def getDTag (tags : List (List String)) : String :=
  match tags.find? (fun t => decide (t.head? = some "d")) with
  | some t => (t.get? 1).getD ""
  | none => ""

/-- Modelled from the spec: the address `kind:pubkey:d-tag-value` identifying
the logical slot of a replaceable event (`Address.ts` is not among the
provided sources). -/
def getAddress (e : Event) : String :=
  natStr e.kind ++ ":" ++ e.pubkey ++ ":" ++ getDTag e.tags

/-- The repository state: the six indices and the tombstone table, each a map
in insertion order, exactly the fields of the `Repository` class. -/
structure Repo where
  eventsById : List (String × Event)
  eventsByWrap : List (String × Event)
  eventsByAddress : List (String × Event)
  eventsByTag : List (String × List Event)
  eventsByDay : List (Nat × List Event)
  eventsByAuthor : List (String × List Event)
  deletes : List (String × Nat)
  deriving DecidableEq, Repr

def Repo.empty : Repo := ⟨[], [], [], [], [], [], []⟩

def DAY : Nat := 86400

def getDay (ts : Nat) : Nat := ts / DAY

/-- Modelled from the spec: the default lower bound for a missing `since`
("epoch start"; the constant lives in `Filters.ts`, not among the provided
sources). -/
def EPOCH : Nat := 0

def isDeletedByAddress (r : Repo) (e : Event) : Bool :=
  decide (e.created_at < (mapGet r.deletes (getAddress e)).getD 0)

def isDeletedById (r : Repo) (e : Event) : Bool :=
  decide (e.created_at < (mapGet r.deletes e.id).getD 0)

def isDeleted (r : Repo) (e : Event) : Bool :=
  isDeletedByAddress r e || isDeletedById r e

/-- `_updateIndex`: read the bucket, drop the superseded incumbent if any,
append the new event, write the bucket back. -/
def updateIndex {κ : Type} [DecidableEq κ] (m : List (κ × List Event)) (k : κ)
    (e : Event) (dup : Option Event) : List (κ × List Event) :=
  let a := (mapGet m k).getD []
  let a2 := match dup with
    | some d => a.filter (fun x => decide (x ≠ d))
    | none => a
  mapSet m k (a2 ++ [e])

/-- `tag.slice(0, 2).join(':')`. -/
def tagKey : List String → String
  | [] => ""
  | [t0] => t0
  | t0 :: t1 :: _ => t0 ++ ":" ++ t1

/-- One iteration of `publish`'s tag loop: index the tag when its first
element is a single character, and for deletion events max-merge the tombstone
timestamp of the tag's target.  (The notification-only `removed` bookkeeping
is not modelled; a deletion tag with no value, on which the real code fails
when resolving the target, is skipped.) -/
def publishTagsStep (cfg : Config) (e : Event) (dup : Option Event) (r : Repo)
    (t : List String) : Repo :=
  match t with
  | [] => r
  | t0 :: rest =>
    if t0.length = 1 then
      let r1 := { r with eventsByTag := updateIndex r.eventsByTag (tagKey t) e dup }
      if e.kind = cfg.DELETE then
        match rest with
        | t1 :: _ =>
          { r1 with deletes := mapSet r1.deletes t1 (max e.created_at ((mapGet r1.deletes t1).getD 0)) }
        | [] => r1
      else r1
    else r

def publishTags (cfg : Config) (e : Event) (dup : Option Event) (r : Repo) : Repo :=
  e.tags.foldl (publishTagsStep cfg e dup) r

/-- The mutation part of `publish` after acceptance: insert by id, by address
when replaceable, by wrap, then update the day, author and tag indices. -/
def publishBody (cfg : Config) (r : Repo) (e : Event) (address : String)
    (dup : Option Event) : Repo :=
  let r1 := { r with eventsById := mapSet r.eventsById e.id e }
  let r2 := if cfg.isReplaceable e.kind then
    { r1 with eventsByAddress := mapSet r1.eventsByAddress address e } else r1
  let r3 := match e.wrap with
    | some w => { r2 with eventsByWrap := mapSet r2.eventsByWrap w e }
    | none => r2
  let r4 := { r3 with eventsByDay := updateIndex r3.eventsByDay (getDay e.created_at) e dup }
  let r5 := { r4 with eventsByAuthor := updateIndex r4.eventsByAuthor e.pubkey e dup }
  publishTags cfg e dup r5

/-- `publish`: reject on a known id or a tombstoned event; reject a stale
replacement (ties favor the incumbent); otherwise tombstone the superseded
incumbent at the incoming timestamp and update every index.  Returns the new
state and the accepted flag.  (Trust validation and notifications are outside
the model.) -/
def publish (cfg : Config) (r : Repo) (e : Event) : Repo × Bool :=
  if (mapGet r.eventsById e.id).isSome || isDeleted r e then (r, false)
  else
    match mapGet r.eventsByAddress (getAddress e) with
    | some dup =>
      if e.created_at ≤ dup.created_at then (r, false)
      else
        (publishBody cfg { r with deletes := mapSet r.deletes dup.id e.created_at }
          e (getAddress e) (some dup), true)
    | none => (publishBody cfg r e (getAddress e) none, true)

def applyFrom (cfg : Config) (r : Repo) (es : List Event) : Repo :=
  es.foldl (fun r e => (publish cfg r e).1) r

/-- The state reached by publishing a sequence of events into a fresh store. -/
def applyAll (cfg : Config) (es : List Event) : Repo :=
  applyFrom cfg Repo.empty es

/-- `dump()`: all known events in insertion order. -/
def dump (r : Repo) : List Event := mapValues r.eventsById

/-- The events a sequence of `publish` calls accepts, in order. -/
def acceptedFrom (cfg : Config) (r : Repo) : List Event → List Event
  | [] => []
  | e :: es =>
    if (publish cfg r e).2 then e :: acceptedFrom cfg (publish cfg r e).1 es
    else acceptedFrom cfg r es

/-- `load`: clear the store and publish every event of the batch (chunking,
cooperative yielding and the aggregate notification are outside the model;
per-event they are `publish` with notification suppressed). -/
def load (cfg : Config) (events : List Event) : Repo := applyAll cfg events

def getEvent (r : Repo) (idOrAddress : String) : Option Event :=
  if idOrAddress.contains ':' then mapGet r.eventsByAddress idOrAddress
  else mapGet r.eventsById idOrAddress

/-- `hasEvent`: the id lookup, else the address lookup, must yield an event at
least as recent as the given one (`duplicate && duplicate.created_at >=
event.created_at`). -/
def hasEvent (r : Repo) (e : Event) : Bool :=
  match mapGet r.eventsById e.id with
  | some d => decide (e.created_at ≤ d.created_at)
  | none =>
    match mapGet r.eventsByAddress (getAddress e) with
    | some d => decide (e.created_at ≤ d.created_at)
    | none => false

/-- A query filter: the optional narrowing fields and the `#<letter>` tag
fields, each a letter paired with its value set. -/
structure Filter where
  ids : Option (List String)
  authors : Option (List String)
  kinds : Option (List Nat)
  since : Option Nat
  «until» : Option Nat
  limit : Option Nat
  tags : List (String × List String)
  deriving DecidableEq, Repr

def Filter.empty : Filter := ⟨none, none, none, none, none, none, []⟩

/-- Modelled from the spec: an event satisfies one `#X` tag field when it
carries a tag whose first element is the letter and whose second element is in
the value set (`matchFilter` lives in `Filters.ts`, not among the provided
sources). -/
def matchTagEntry (e : Event) (tv : String × List String) : Bool :=
  e.tags.any (fun t =>
    match t with
    | t0 :: t1 :: _ => t0 == tv.1 && tv.2.contains t1
    | _ => false)

/-- An absent field is unconstrained; a present one requires membership. -/
def optMemB {α : Type} [BEq α] (o : Option (List α)) (a : α) : Bool :=
  match o with
  | some l => l.contains a
  | none => true

def optSinceB (o : Option Nat) (c : Nat) : Bool :=
  match o with
  | some s => decide (s ≤ c)
  | none => true

def optUntilB (o : Option Nat) (c : Nat) : Bool :=
  match o with
  | some u => decide (c ≤ u)
  | none => true

/-- Modelled from the spec: an event matches a filter iff every present field
is satisfied — `ids`/`authors`/`kinds` as set membership, `since`/`until` as
inclusive bounds on `created_at`, and every tag field, all ANDed together
(`matchFilter` lives in `Filters.ts`, not among the provided sources). -/
def matchFilter (f : Filter) (e : Event) : Bool :=
  optMemB f.ids e.id &&
  optMemB f.authors e.pubkey &&
  optMemB f.kinds e.kind &&
  optSinceB f.since e.created_at &&
  optUntilB f.«until» e.created_at &&
  f.tags.all (matchTagEntry e)

/-- JS truthiness of an optional number: present and nonzero. -/
def truthyN : Option Nat → Bool
  | some n => n != 0
  | none => false

/-- `x || d` for an optional number `x`: the JS default kicks in when the
value is missing or zero. -/
def orFalsy : Option Nat → Nat → Nat
  | some n, d => if n = 0 then d else n
  | none, d => d

/-- `Array.from(new Set(xs))`: deduplicate keeping first occurrences. -/
def uniqAux {α : Type} [DecidableEq α] (seen : List α) : List α → List α
  | [] => []
  | x :: xs => if x ∈ seen then uniqAux seen xs else x :: uniqAux (x :: seen) xs

def uniq {α : Type} [DecidableEq α] (l : List α) : List α := uniqAux [] l

/-- `sortBy(e => -e.created_at, events)`: sort descending by `created_at`
(insertion sort; the spec leaves ties unordered). -/
def insertDesc (e : Event) : List Event → List Event
  | [] => [e]
  | x :: xs => if e.created_at ≤ x.created_at then x :: insertDesc e xs else e :: x :: xs

def sortDesc : List Event → List Event
  | [] => []
  | x :: xs => insertDesc x (sortDesc xs)

/-- The walk over the sorted candidates: stop once the limit is satisfied,
skip tombstoned events unless asked, keep residual-filter matches. -/
def collect (r : Repo) (includeDeleted : Bool) (f : Filter) :
    List Event → List Event → List Event
  | acc, [] => acc
  | acc, e :: rest =>
    if truthyN f.limit && decide (f.limit.getD 0 ≤ acc.length) then acc
    else if !includeDeleted && isDeleted r e then collect r includeDeleted f acc rest
    else if matchFilter f e then collect r includeDeleted f (acc ++ [e]) rest
    else collect r includeDeleted f acc rest

/-- Remove the tag field with the given letter from a filter's tag fields. -/
def eraseTagKey (tags : List (String × List String)) (k : String) :
    List (String × List String) :=
  tags.filter (fun tv => decide (tv.1 ≠ k))

/-- The narrowing step of `query`: pick one index (ids, else authors, else the
day range, else the first single-letter tag field, else a full scan), return
the candidates and the residual filter. -/
def narrow (tnow : Nat) (r : Repo) (f : Filter) : List Event × Filter :=
  match f.ids with
  | some ids => (ids.filterMap (fun i => mapGet r.eventsById i), { f with ids := none })
  | none =>
    match f.authors with
    | some as =>
      (uniq (as.map (fun p => (mapGet r.eventsByAuthor p).getD [])).flatten,
        { f with authors := none })
    | none =>
      if truthyN f.since || truthyN f.«until» then
        (uniq ((List.range' (getDay (orFalsy f.since EPOCH))
            (getDay (orFalsy f.«until» tnow) + 1 - getDay (orFalsy f.since EPOCH))).map
            (fun d => (mapGet r.eventsByDay d).getD [])).flatten, f)
      else
        match f.tags.find? (fun tv => decide (tv.1.length = 1)) with
        | some tv =>
          (uniq (tv.2.map (fun v => (mapGet r.eventsByTag (tv.1 ++ ":" ++ v)).getD [])).flatten,
            { f with tags := eraseTagKey f.tags tv.1 })
        | none => (mapValues r.eventsById, f)

/-- One filter's evaluation inside `query`. -/
def queryFilter (tnow : Nat) (r : Repo) (includeDeleted : Bool) (f : Filter) :
    List Event :=
  collect r includeDeleted (narrow tnow r f).2 [] (sortDesc (narrow tnow r f).1)

/-- `query`: evaluate each filter and merge, dropping duplicates.  `tnow` is
the clock value `now()` would return. -/
def query (tnow : Nat) (r : Repo) (filters : List Filter) (includeDeleted : Bool) :
    List Event :=
  uniq ((filters.map (queryFilter tnow r includeDeleted)).flatten)

/-! ### Basic lemmas about the map model -/

theorem mapGet_set_self {κ α : Type} [DecidableEq κ] (m : List (κ × α)) (k : κ) (v : α) :
    mapGet (mapSet m k v) k = some v := by
  induction m with
  | nil => simp [mapSet, mapGet]
  | cons p m ih =>
    by_cases h : p.1 = k
    · simp [mapSet, h, mapGet]
    · simp [mapSet, h, mapGet, ih]

theorem mapGet_set_ne {κ α : Type} [DecidableEq κ] (m : List (κ × α)) (k k' : κ) (v : α)
    (h : k' ≠ k) : mapGet (mapSet m k v) k' = mapGet m k' := by
  induction m with
  | nil => simp [mapSet, mapGet, Ne.symm h]
  | cons p m ih =>
    by_cases hp : p.1 = k
    · simp [mapSet, hp, mapGet, Ne.symm h]
    · simp [mapSet, hp, mapGet, ih]

theorem mapGet_set {κ α : Type} [DecidableEq κ] (m : List (κ × α)) (k k' : κ) (v : α) :
    mapGet (mapSet m k v) k' = if k' = k then some v else mapGet m k' := by
  by_cases h : k' = k
  · subst h; simp [mapGet_set_self]
  · simp [h, mapGet_set_ne m k k' v h]

theorem mapSet_of_none {κ α : Type} [DecidableEq κ] (m : List (κ × α)) (k : κ) (v : α)
    (h : mapGet m k = none) : mapSet m k v = m ++ [(k, v)] := by
  induction m with
  | nil => simp [mapSet]
  | cons p m ih =>
    simp only [mapGet] at h
    by_cases hp : p.1 = k
    · simp [hp] at h
    · simp only [hp, if_false] at h
      simp [mapSet, hp, ih h]

theorem mapGet_mem_values {κ α : Type} [DecidableEq κ] (m : List (κ × α)) (k : κ) (v : α)
    (h : mapGet m k = some v) : v ∈ mapValues m := by
  induction m with
  | nil => simp [mapGet] at h
  | cons p m ih =>
    simp only [mapGet] at h
    by_cases hp : p.1 = k
    · simp only [hp, if_true, Option.some.injEq] at h
      simp [mapValues, h]
    · simp only [hp, if_false] at h
      simp [mapValues] at ih ⊢
      exact Or.inr (ih h)

theorem mapValues_append {κ α : Type} (m m' : List (κ × α)) :
    mapValues (m ++ m') = mapValues m ++ mapValues m' := by
  simp [mapValues]

theorem mapGet_append {κ α : Type} [DecidableEq κ] (m m' : List (κ × α)) (k : κ) :
    mapGet (m ++ m') k = ((mapGet m k).map some).getD (mapGet m' k) := by
  induction m with
  | nil => simp [mapGet]
  | cons p m ih =>
    by_cases hp : p.1 = k
    · simp [mapGet, hp]
    · simp [mapGet, hp, ih]

/-! ### The decimal rendering used in addresses is injective and colon-free -/

theorem digitVal_digitChar (n : Nat) (h : n < 10) : digitVal (digitChar n) = n := by
  interval_cases n <;> rfl

theorem digitChar_ne_colon (n : Nat) : digitChar n ≠ ':' := by
  rcases Nat.lt_or_ge n 9 with h | h
  · interval_cases n <;> decide
  · obtain ⟨k, rfl⟩ : ∃ k, n = k + 9 := ⟨n - 9, by omega⟩
    exact (by decide : ('9' : Char) ≠ ':')

def natVal (cs : List Char) : Nat := cs.foldl (fun a c => 10 * a + digitVal c) 0

theorem natVal_append_digit (cs : List Char) (c : Char) :
    natVal (cs ++ [c]) = 10 * natVal cs + digitVal c := by
  simp [natVal, List.foldl_append]

theorem natVal_natCharsAux (fuel n : Nat) (h : n < fuel) :
    natVal (natCharsAux fuel n) = n := by
  induction fuel generalizing n with
  | zero => omega
  | succ fuel ih =>
    by_cases h10 : n < 10
    · simp [natCharsAux, h10, natVal, digitVal_digitChar n h10]
    · have hdiv : n / 10 < n := Nat.div_lt_self (by omega) (by omega)
      have hfuel : n / 10 < fuel := by omega
      simp only [natCharsAux, h10, if_false]
      rw [natVal_append_digit, ih (n / 10) hfuel, digitVal_digitChar (n % 10) (Nat.mod_lt n (by omega))]
      omega

theorem natVal_natChars (n : Nat) : natVal (natChars n) = n :=
  natVal_natCharsAux (n + 1) n (by omega)

theorem natChars_injective (m n : Nat) (h : natChars m = natChars n) : m = n := by
  have hm := natVal_natChars m
  have hn := natVal_natChars n
  rw [h] at hm
  omega

theorem natCharsAux_ne_colon (fuel n : Nat) (c : Char) (h : c ∈ natCharsAux fuel n) :
    c ≠ ':' := by
  induction fuel generalizing n with
  | zero => simp [natCharsAux] at h
  | succ fuel ih =>
    by_cases h10 : n < 10
    · simp [natCharsAux, h10] at h
      exact h ▸ digitChar_ne_colon n
    · simp only [natCharsAux, h10, if_false, List.mem_append, List.mem_singleton] at h
      rcases h with h | h
      · exact ih (n / 10) h
      · exact h ▸ digitChar_ne_colon (n % 10)

theorem natChars_ne_colon (n : Nat) (c : Char) (h : c ∈ natChars n) : c ≠ ':' :=
  natCharsAux_ne_colon (n + 1) n c h

/-- Two colon-free prefixes before a colon separator coincide. -/
theorem colon_prefix_cancel (a : List Char) :
    ∀ (b x y : List Char), (∀ c ∈ a, c ≠ ':') → (∀ c ∈ b, c ≠ ':') →
    a ++ ':' :: x = b ++ ':' :: y → a = b ∧ x = y := by
  induction a with
  | nil =>
    intro b x y _ hb h
    cases b with
    | nil => simpa using h
    | cons d bs =>
      simp only [List.nil_append, List.cons_append, List.cons.injEq] at h
      exact absurd h.1.symm (hb d (by simp))
  | cons c as ih =>
    intro b x y ha hb h
    cases b with
    | nil =>
      simp only [List.nil_append, List.cons_append, List.cons.injEq] at h
      exact absurd h.1 (ha c (by simp))
    | cons d bs =>
      simp only [List.cons_append, List.cons.injEq] at h
      obtain ⟨rfl, h2⟩ := h
      have := ih bs x y (fun c hc => ha c (by simp [hc])) (fun c hc => hb c (by simp [hc])) h2
      exact ⟨by rw [this.1], this.2⟩

theorem colon_data : (":" : String).data = [':'] := rfl

theorem getAddress_kind_eq (a b : Event) (h : getAddress a = getAddress b) :
    a.kind = b.kind := by
  have hd : (getAddress a).data = (getAddress b).data := by rw [h]
  simp only [getAddress, natStr, String.data_append, colon_data, List.append_assoc,
    List.singleton_append] at hd
  have hc := colon_prefix_cancel (natChars a.kind) (natChars b.kind)
    (a.pubkey.data ++ ':' :: (getDTag a.tags).data)
    (b.pubkey.data ++ ':' :: (getDTag b.tags).data)
    (natChars_ne_colon a.kind) (natChars_ne_colon b.kind) hd
  exact natChars_injective _ _ hc.1

/-! ### uniq, sorting and the candidate walk -/

theorem mem_uniqAux {α : Type} [DecidableEq α] (l : List α) :
    ∀ (seen : List α) (x : α), x ∈ uniqAux seen l ↔ x ∈ l ∧ x ∉ seen := by
  induction l with
  | nil => intro seen x; simp [uniqAux]
  | cons y ys ih =>
    intro seen x
    by_cases hy : y ∈ seen
    · rw [uniqAux, if_pos hy, ih]
      simp only [List.mem_cons]
      constructor
      · rintro ⟨h1, h2⟩
        exact ⟨Or.inr h1, h2⟩
      · rintro ⟨h1 | h1, h2⟩
        · exact absurd (h1 ▸ hy) h2
        · exact ⟨h1, h2⟩
    · rw [uniqAux, if_neg hy]
      simp only [List.mem_cons, ih]
      constructor
      · rintro (rfl | ⟨h1, h2⟩)
        · exact ⟨Or.inl rfl, hy⟩
        · refine ⟨Or.inr h1, fun hs => h2 (by simp [hs])⟩
      · rintro ⟨rfl | h1, h2⟩
        · exact Or.inl rfl
        · by_cases hxy : x = y
          · exact Or.inl hxy
          · exact Or.inr ⟨h1, by simp [hxy, h2]⟩

theorem mem_uniq {α : Type} [DecidableEq α] (l : List α) (x : α) :
    x ∈ uniq l ↔ x ∈ l := by
  simp [uniq, mem_uniqAux]

theorem uniqAux_length_le {α : Type} [DecidableEq α] (l : List α) :
    ∀ seen : List α, (uniqAux seen l).length ≤ l.length := by
  induction l with
  | nil => intro seen; simp [uniqAux]
  | cons y ys ih =>
    intro seen
    by_cases hy : y ∈ seen
    · rw [uniqAux, if_pos hy]
      exact le_trans (ih seen) (by simp)
    · rw [uniqAux, if_neg hy]
      simpa using ih (y :: seen)

theorem uniq_length_le {α : Type} [DecidableEq α] (l : List α) :
    (uniq l).length ≤ l.length := uniqAux_length_le l []

theorem mem_insertDesc (e x : Event) (l : List Event) :
    x ∈ insertDesc e l ↔ x = e ∨ x ∈ l := by
  induction l with
  | nil => simp [insertDesc]
  | cons y ys ih =>
    rw [insertDesc]
    by_cases h : e.created_at ≤ y.created_at
    · rw [if_pos h]
      simp only [List.mem_cons, ih]
      tauto
    · rw [if_neg h]
      simp only [List.mem_cons]

theorem mem_sortDesc (x : Event) (l : List Event) : x ∈ sortDesc l ↔ x ∈ l := by
  induction l with
  | nil => simp [sortDesc]
  | cons y ys ih => simp [sortDesc, mem_insertDesc, ih]

/-- Sorted by `created_at` descending. -/
def SortedDesc (l : List Event) : Prop :=
  l.Pairwise (fun a b => b.created_at ≤ a.created_at)

theorem sortedDesc_insertDesc (e : Event) (l : List Event) (h : SortedDesc l) :
    SortedDesc (insertDesc e l) := by
  induction l with
  | nil => simp [insertDesc, SortedDesc]
  | cons y ys ih =>
    unfold SortedDesc at h ih ⊢
    rw [List.pairwise_cons] at h
    rw [insertDesc]
    by_cases hle : e.created_at ≤ y.created_at
    · rw [if_pos hle, List.pairwise_cons]
      refine ⟨fun b hb => ?_, ih h.2⟩
      rcases (mem_insertDesc e b ys).1 hb with rfl | hb
      · exact hle
      · exact h.1 b hb
    · rw [if_neg hle, List.pairwise_cons]
      refine ⟨fun b hb => ?_, by rw [List.pairwise_cons]; exact h⟩
      rcases List.mem_cons.1 hb with rfl | hb
      · omega
      · exact le_trans (h.1 b hb) (by omega)

theorem sortedDesc_sortDesc (l : List Event) : SortedDesc (sortDesc l) := by
  induction l with
  | nil => simp [sortDesc, SortedDesc]
  | cons y ys ih => exact sortedDesc_insertDesc y (sortDesc ys) ih

/-- When the walk does not skip an event, the filter keeps it or it is
tombstoned while deleted events are excluded. -/
theorem not_skip_case (incl del : Bool) (h : ¬((!incl && del) = true)) :
    incl = true ∨ del = false := by
  cases incl <;> cases del <;> simp_all

theorem collect_mem_acc (r : Repo) (incl : Bool) (f : Filter) (l : List Event) :
    ∀ (acc : List Event) (x : Event), x ∈ acc → x ∈ collect r incl f acc l := by
  induction l with
  | nil => intro acc x hx; simpa [collect] using hx
  | cons e rest ih =>
    intro acc x hx
    rw [collect]
    by_cases h1 : (truthyN f.limit && decide (f.limit.getD 0 ≤ acc.length)) = true
    · rw [if_pos h1]; exact hx
    · rw [if_neg h1]
      by_cases h2 : (!incl && isDeleted r e) = true
      · rw [if_pos h2]; exact ih acc x hx
      · rw [if_neg h2]
        by_cases h3 : matchFilter f e = true
        · rw [if_pos h3]; exact ih (acc ++ [e]) x (by simp [hx])
        · rw [if_neg h3]; exact ih acc x hx

theorem collect_mem_no_limit (r : Repo) (incl : Bool) (f : Filter)
    (hf : truthyN f.limit = false) (l : List Event) :
    ∀ (acc : List Event) (x : Event), x ∈ collect r incl f acc l ↔
      x ∈ acc ∨ (x ∈ l ∧ (incl = true ∨ isDeleted r x = false) ∧ matchFilter f x = true) := by
  induction l with
  | nil => intro acc x; simp [collect]
  | cons e rest ih =>
    intro acc x
    rw [collect, if_neg (by simp [hf])]
    by_cases h2 : (!incl && isDeleted r e) = true
    · rw [if_pos h2, ih]
      simp only [Bool.and_eq_true, Bool.not_eq_true'] at h2
      constructor
      · rintro (h | ⟨h1, h3, h4⟩)
        · exact Or.inl h
        · exact Or.inr ⟨by simp [h1], h3, h4⟩
      · rintro (h | ⟨h1, h3, h4⟩)
        · exact Or.inl h
        · rcases List.mem_cons.1 h1 with rfl | h1
          · rcases h3 with h3 | h3
            · rw [h3] at h2; simp at h2
            · rw [h3] at h2; simp at h2
          · exact Or.inr ⟨h1, h3, h4⟩
    · rw [if_neg h2]
      by_cases h3 : matchFilter f e = true
      · rw [if_pos h3, ih]
        constructor
        · rintro (h | ⟨h1, h4, h5⟩)
          · rcases List.mem_append.1 h with h | h
            · exact Or.inl h
            · rcases List.mem_singleton.1 h with rfl
              exact Or.inr ⟨by simp, not_skip_case incl (isDeleted r x) h2, h3⟩
          · exact Or.inr ⟨List.mem_cons_of_mem e h1, h4, h5⟩
        · rintro (h | ⟨h1, h4, h5⟩)
          · exact Or.inl (by simp [h])
          · rcases List.mem_cons.1 h1 with rfl | h1
            · exact Or.inl (by simp)
            · exact Or.inr ⟨h1, h4, h5⟩
      · rw [if_neg h3, ih]
        constructor
        · rintro (h | ⟨h1, h4, h5⟩)
          · exact Or.inl h
          · exact Or.inr ⟨List.mem_cons_of_mem e h1, h4, h5⟩
        · rintro (h | ⟨h1, h4, h5⟩)
          · exact Or.inl h
          · rcases List.mem_cons.1 h1 with rfl | h1
            · exact absurd h5 (by simp [h3])
            · exact Or.inr ⟨h1, h4, h5⟩

theorem collect_sound (r : Repo) (incl : Bool) (f : Filter) (l : List Event) :
    ∀ (acc : List Event) (x : Event), x ∈ collect r incl f acc l →
      x ∈ acc ∨ (x ∈ l ∧ (incl = true ∨ isDeleted r x = false) ∧ matchFilter f x = true) := by
  induction l with
  | nil => intro acc x h; exact Or.inl (by simpa [collect] using h)
  | cons e rest ih =>
    intro acc x h
    rw [collect] at h
    by_cases h1 : (truthyN f.limit && decide (f.limit.getD 0 ≤ acc.length)) = true
    · rw [if_pos h1] at h; exact Or.inl h
    · rw [if_neg h1] at h
      by_cases h2 : (!incl && isDeleted r e) = true
      · rw [if_pos h2] at h
        rcases ih acc x h with h | ⟨ha, hb, hc⟩
        · exact Or.inl h
        · exact Or.inr ⟨List.mem_cons_of_mem e ha, hb, hc⟩
      · rw [if_neg h2] at h
        by_cases h3 : matchFilter f e = true
        · rw [if_pos h3] at h
          rcases ih (acc ++ [e]) x h with h | ⟨ha, hb, hc⟩
          · rcases List.mem_append.1 h with h | h
            · exact Or.inl h
            · rcases List.mem_singleton.1 h with rfl
              exact Or.inr ⟨by simp, not_skip_case incl (isDeleted r x) h2, h3⟩
          · exact Or.inr ⟨List.mem_cons_of_mem e ha, hb, hc⟩
        · rw [if_neg h3] at h
          rcases ih acc x h with h | ⟨ha, hb, hc⟩
          · exact Or.inl h
          · exact Or.inr ⟨List.mem_cons_of_mem e ha, hb, hc⟩

theorem collect_length_le (r : Repo) (incl : Bool) (f : Filter) (N : Nat)
    (hf : f.limit = some N) (hN : N ≠ 0) (l : List Event) :
    ∀ acc : List Event, acc.length ≤ N → (collect r incl f acc l).length ≤ N := by
  induction l with
  | nil => intro acc hacc; simpa [collect] using hacc
  | cons e rest ih =>
    intro acc hacc
    rw [collect]
    by_cases h1 : (truthyN f.limit && decide (f.limit.getD 0 ≤ acc.length)) = true
    · rw [if_pos h1]; exact hacc
    · rw [if_neg h1]
      have hlen : acc.length < N := by
        simp only [hf, truthyN, Option.getD_some, Bool.and_eq_true, bne_iff_ne,
          decide_eq_true_eq, not_and] at h1
        by_contra hc
        exact h1 (by omega) (by omega)
      by_cases h2 : (!incl && isDeleted r e) = true
      · rw [if_pos h2]; exact ih acc hacc
      · rw [if_neg h2]
        by_cases h3 : matchFilter f e = true
        · rw [if_pos h3]
          refine ih (acc ++ [e]) ?_
          simp only [List.length_append, List.length_singleton]
          omega
        · rw [if_neg h3]; exact ih acc hacc

theorem collect_break_ge (r : Repo) (incl : Bool) (f : Filter) (l : List Event)
    (y : Event) :
    ∀ acc : List Event, SortedDesc l → y ∈ l →
    (incl = true ∨ isDeleted r y = false) → matchFilter f y = true →
    y ∉ collect r incl f acc l →
    ∀ x ∈ collect r incl f acc l, x ∈ acc ∨ y.created_at ≤ x.created_at := by
  induction l with
  | nil => intro acc _ hy; simp at hy
  | cons e rest ih =>
    intro acc hs hy hyd hym hyn x hx
    rw [collect] at hyn hx
    unfold SortedDesc at hs
    rw [List.pairwise_cons] at hs
    by_cases h1 : (truthyN f.limit && decide (f.limit.getD 0 ≤ acc.length)) = true
    · rw [if_pos h1] at hx; exact Or.inl hx
    · rw [if_neg h1] at hyn hx
      by_cases h2 : (!incl && isDeleted r e) = true
      · rw [if_pos h2] at hyn hx
        have hy2 : y ∈ rest := by
          rcases List.mem_cons.1 hy with h | h
          · exfalso
            rcases hyd with hyd | hyd
            · rw [hyd] at h2; simp at h2
            · rw [h] at hyd; rw [hyd] at h2; simp at h2
          · exact h
        exact ih acc hs.2 hy2 hyd hym hyn x hx
      · rw [if_neg h2] at hyn hx
        by_cases h3 : matchFilter f e = true
        · rw [if_pos h3] at hyn hx
          have hy2 : y ∈ rest := by
            rcases List.mem_cons.1 hy with h | h
            · exfalso
              subst h
              exact hyn (collect_mem_acc r incl f rest (acc ++ [y]) y (by simp))
            · exact h
          rcases ih (acc ++ [e]) hs.2 hy2 hyd hym hyn x hx with h | h
          · rcases List.mem_append.1 h with h | h
            · exact Or.inl h
            · rcases List.mem_singleton.1 h with rfl
              exact Or.inr (hs.1 y hy2)
          · exact Or.inr h
        · rw [if_neg h3] at hyn hx
          have hy2 : y ∈ rest := by
            rcases List.mem_cons.1 hy with h | h
            · exfalso; rw [h] at hym; rw [hym] at h3; exact h3 rfl
            · exact h
          exact ih acc hs.2 hy2 hyd hym hyn x hx

/-! ### Structure of the tag loop -/

theorem publishTagsStep_frame (cfg : Config) (e : Event) (dup : Option Event)
    (r : Repo) (t : List String) :
    (publishTagsStep cfg e dup r t).eventsById = r.eventsById ∧
    (publishTagsStep cfg e dup r t).eventsByAddress = r.eventsByAddress ∧
    (publishTagsStep cfg e dup r t).eventsByWrap = r.eventsByWrap ∧
    (publishTagsStep cfg e dup r t).eventsByDay = r.eventsByDay ∧
    (publishTagsStep cfg e dup r t).eventsByAuthor = r.eventsByAuthor := by
  rcases t with _ | ⟨t0, rest⟩
  · simp [publishTagsStep]
  · by_cases h : t0.length = 1 <;> by_cases hk : e.kind = cfg.DELETE <;>
      rcases rest with _ | ⟨t1, rest⟩ <;> simp [publishTagsStep, h, hk]

theorem publishTags_foldl_frame (cfg : Config) (e : Event) (dup : Option Event)
    (ts : List (List String)) :
    ∀ r : Repo,
    (List.foldl (publishTagsStep cfg e dup) r ts).eventsById = r.eventsById ∧
    (List.foldl (publishTagsStep cfg e dup) r ts).eventsByAddress = r.eventsByAddress ∧
    (List.foldl (publishTagsStep cfg e dup) r ts).eventsByWrap = r.eventsByWrap ∧
    (List.foldl (publishTagsStep cfg e dup) r ts).eventsByDay = r.eventsByDay ∧
    (List.foldl (publishTagsStep cfg e dup) r ts).eventsByAuthor = r.eventsByAuthor := by
  induction ts with
  | nil => intro r; simp
  | cons t ts ih =>
    intro r
    rw [List.foldl_cons]
    have h1 := publishTagsStep_frame cfg e dup r t
    have h2 := ih (publishTagsStep cfg e dup r t)
    exact ⟨h2.1.trans h1.1, (h2.2.1).trans h1.2.1, (h2.2.2.1).trans h1.2.2.1,
      (h2.2.2.2.1).trans h1.2.2.2.1, (h2.2.2.2.2).trans h1.2.2.2.2⟩

theorem publishTags_frame (cfg : Config) (e : Event) (dup : Option Event) (r : Repo) :
    (publishTags cfg e dup r).eventsById = r.eventsById ∧
    (publishTags cfg e dup r).eventsByAddress = r.eventsByAddress ∧
    (publishTags cfg e dup r).eventsByWrap = r.eventsByWrap ∧
    (publishTags cfg e dup r).eventsByDay = r.eventsByDay ∧
    (publishTags cfg e dup r).eventsByAuthor = r.eventsByAuthor :=
  publishTags_foldl_frame cfg e dup e.tags r

theorem publishTagsStep_deletes (cfg : Config) (e : Event) (dup : Option Event)
    (r : Repo) (t : List String) (k : String) :
    ((mapGet (publishTagsStep cfg e dup r t).deletes k).getD 0 = (mapGet r.deletes k).getD 0 ∨
     (mapGet (publishTagsStep cfg e dup r t).deletes k).getD 0 =
       max e.created_at ((mapGet r.deletes k).getD 0)) ∧
    ((mapGet r.deletes k).isSome = true →
      (mapGet (publishTagsStep cfg e dup r t).deletes k).isSome = true) := by
  rcases t with _ | ⟨t0, rest⟩
  · simp [publishTagsStep]
  · by_cases h : t0.length = 1
    · by_cases hk : e.kind = cfg.DELETE
      · rcases rest with _ | ⟨t1, rest⟩
        · simp [publishTagsStep, h, hk]
        · by_cases ht : k = t1
          · subst ht
            constructor
            · right
              simp [publishTagsStep, h, hk, mapGet_set_self]
            · intro _
              simp [publishTagsStep, h, hk, mapGet_set_self]
          · constructor
            · left
              simp [publishTagsStep, h, hk, mapGet_set_ne _ _ _ _ ht]
            · intro hs
              simpa [publishTagsStep, h, hk, mapGet_set_ne _ _ _ _ ht] using hs
      · simp [publishTagsStep, h, hk]
    · simp [publishTagsStep, h]

theorem publishTags_foldl_deletes (cfg : Config) (e : Event) (dup : Option Event)
    (ts : List (List String)) :
    ∀ (r : Repo) (k : String),
    ((mapGet (List.foldl (publishTagsStep cfg e dup) r ts).deletes k).getD 0 =
        (mapGet r.deletes k).getD 0 ∨
     (mapGet (List.foldl (publishTagsStep cfg e dup) r ts).deletes k).getD 0 =
        max e.created_at ((mapGet r.deletes k).getD 0)) ∧
    ((mapGet r.deletes k).isSome = true →
      (mapGet (List.foldl (publishTagsStep cfg e dup) r ts).deletes k).isSome = true) := by
  induction ts with
  | nil => intro r k; simp
  | cons t ts ih =>
    intro r k
    rw [List.foldl_cons]
    have h1 := publishTagsStep_deletes cfg e dup r t k
    have h2 := ih (publishTagsStep cfg e dup r t) k
    constructor
    · rcases h2.1 with h2a | h2a <;> rcases h1.1 with h1a | h1a
      · exact Or.inl (h2a.trans h1a)
      · exact Or.inr (h2a.trans h1a)
      · right
        rw [h2a, h1a]
      · right
        rw [h2a, h1a, ← Nat.max_assoc, Nat.max_self]
    · intro hs
      exact h2.2 (h1.2 hs)

theorem publishTags_deletes (cfg : Config) (e : Event) (dup : Option Event)
    (r : Repo) (k : String) :
    ((mapGet (publishTags cfg e dup r).deletes k).getD 0 = (mapGet r.deletes k).getD 0 ∨
     (mapGet (publishTags cfg e dup r).deletes k).getD 0 =
        max e.created_at ((mapGet r.deletes k).getD 0)) ∧
    ((mapGet r.deletes k).isSome = true →
      (mapGet (publishTags cfg e dup r).deletes k).isSome = true) :=
  publishTags_foldl_deletes cfg e dup e.tags r k

/-- Membership in a bucket after `_updateIndex`. -/
theorem bucket_updateIndex {κ : Type} [DecidableEq κ] (m : List (κ × List Event))
    (k k' : κ) (e : Event) (dup : Option Event) (w : Event) :
    (w ∈ (mapGet (updateIndex m k e dup) k').getD [] ↔
      (if k' = k
       then ((w ∈ (mapGet m k).getD [] ∧ ∀ d, dup = some d → w ≠ d) ∨ w = e)
       else w ∈ (mapGet m k').getD [])) := by
  unfold updateIndex
  rw [mapGet_set]
  by_cases h : k' = k
  · rcases dup with _ | d
    · simp [h]
    · simp [h, List.mem_filter]
  · simp [h]

/-- The single-letter tag keys of a tag list, as `publish`'s tag loop indexes
them. -/
def tagIndexKeys (ts : List (List String)) : List String :=
  ts.filterMap (fun t => match t with
    | t0 :: _ => if t0.length = 1 then some (tagKey t) else none
    | [] => none)

def eTagKeys (e : Event) : List String := tagIndexKeys e.tags

theorem publishTags_foldl_tagB (cfg : Config) (e : Event) (dup : Option Event)
    (ts : List (List String)) :
    ∀ (r : Repo) (k : String) (w : Event),
    (w ∈ (mapGet (List.foldl (publishTagsStep cfg e dup) r ts).eventsByTag k).getD [] ↔
      (if k ∈ tagIndexKeys ts
       then ((w ∈ (mapGet r.eventsByTag k).getD [] ∧ ∀ d, dup = some d → w ≠ d) ∨ w = e)
       else w ∈ (mapGet r.eventsByTag k).getD [])) := by
  induction ts with
  | nil => intro r k w; simp [tagIndexKeys]
  | cons t ts ih =>
    intro r k w
    rw [List.foldl_cons, ih]
    rcases t with _ | ⟨t0, rest⟩
    · have hkeys : tagIndexKeys ([] :: ts) = tagIndexKeys ts := by
        simp [tagIndexKeys]
      have hstep : publishTagsStep cfg e dup r [] = r := rfl
      rw [hstep, hkeys]
    · by_cases h : t0.length = 1
      · have hstep : (publishTagsStep cfg e dup r (t0 :: rest)).eventsByTag =
            updateIndex r.eventsByTag (tagKey (t0 :: rest)) e dup := by
          by_cases hk : e.kind = cfg.DELETE <;> rcases rest with _ | ⟨t1, rest⟩ <;>
            simp [publishTagsStep, h, hk]
        have hkeys : tagIndexKeys ((t0 :: rest) :: ts) =
            tagKey (t0 :: rest) :: tagIndexKeys ts := by
          simp [tagIndexKeys, h]
        rw [hstep, hkeys]
        by_cases hkt : k = tagKey (t0 :: rest)
        · rw [hkt]
          by_cases hmem : tagKey (t0 :: rest) ∈ tagIndexKeys ts
          · rw [if_pos hmem, if_pos (List.mem_cons_self _ _), bucket_updateIndex, if_pos rfl]
            tauto
          · rw [if_neg hmem, if_pos (List.mem_cons_self _ _), bucket_updateIndex, if_pos rfl]
        · by_cases hmem : k ∈ tagIndexKeys ts
          · rw [if_pos hmem, if_pos (List.mem_cons_of_mem _ hmem), bucket_updateIndex,
              if_neg hkt]
          · rw [if_neg hmem, bucket_updateIndex, if_neg hkt,
              if_neg (by simp [hkt, hmem] : ¬k ∈ tagKey (t0 :: rest) :: tagIndexKeys ts)]
      · have hstep : publishTagsStep cfg e dup r (t0 :: rest) = r := by
          simp [publishTagsStep, h]
        have hkeys : tagIndexKeys ((t0 :: rest) :: ts) = tagIndexKeys ts := by
          simp [tagIndexKeys, h]
        rw [hstep, hkeys]

theorem publishTags_tagB (cfg : Config) (e : Event) (dup : Option Event) (r : Repo)
    (k : String) (w : Event) :
    (w ∈ (mapGet (publishTags cfg e dup r).eventsByTag k).getD [] ↔
      (if k ∈ eTagKeys e
       then ((w ∈ (mapGet r.eventsByTag k).getD [] ∧ ∀ d, dup = some d → w ≠ d) ∨ w = e)
       else w ∈ (mapGet r.eventsByTag k).getD [])) :=
  publishTags_foldl_tagB cfg e dup e.tags r k w

/-! ### Structure of publish -/

theorem publishTags_eventsById (cfg : Config) (e : Event) (dup : Option Event) (r : Repo) :
    (publishTags cfg e dup r).eventsById = r.eventsById :=
  (publishTags_frame cfg e dup r).1

theorem publishTags_eventsByAddress (cfg : Config) (e : Event) (dup : Option Event) (r : Repo) :
    (publishTags cfg e dup r).eventsByAddress = r.eventsByAddress :=
  (publishTags_frame cfg e dup r).2.1

theorem publishTags_eventsByDay (cfg : Config) (e : Event) (dup : Option Event) (r : Repo) :
    (publishTags cfg e dup r).eventsByDay = r.eventsByDay :=
  (publishTags_frame cfg e dup r).2.2.2.1

theorem publishTags_eventsByAuthor (cfg : Config) (e : Event) (dup : Option Event) (r : Repo) :
    (publishTags cfg e dup r).eventsByAuthor = r.eventsByAuthor :=
  (publishTags_frame cfg e dup r).2.2.2.2

theorem publishTagsStep_deletes_ext (cfg : Config) (e : Event) (dup : Option Event)
    (r r' : Repo) (t : List String) (h : r.deletes = r'.deletes) :
    (publishTagsStep cfg e dup r t).deletes = (publishTagsStep cfg e dup r' t).deletes := by
  rcases t with _ | ⟨t0, rest⟩
  · simpa [publishTagsStep] using h
  · by_cases hl : t0.length = 1 <;> by_cases hk : e.kind = cfg.DELETE <;>
      rcases rest with _ | ⟨t1, rest⟩ <;> simp [publishTagsStep, hl, hk, h]

theorem publishTags_foldl_deletes_ext (cfg : Config) (e : Event) (dup : Option Event)
    (ts : List (List String)) :
    ∀ r r' : Repo, r.deletes = r'.deletes →
    (List.foldl (publishTagsStep cfg e dup) r ts).deletes =
      (List.foldl (publishTagsStep cfg e dup) r' ts).deletes := by
  induction ts with
  | nil => intro r r' h; simpa using h
  | cons t ts ih =>
    intro r r' h
    rw [List.foldl_cons, List.foldl_cons]
    exact ih _ _ (publishTagsStep_deletes_ext cfg e dup r r' t h)

theorem publishBody_eventsById (cfg : Config) (r : Repo) (e : Event) (a : String)
    (dup : Option Event) :
    (publishBody cfg r e a dup).eventsById = mapSet r.eventsById e.id e := by
  cases hw : e.wrap <;> by_cases hr : cfg.isReplaceable e.kind = true <;>
    simp [publishBody, hw, hr, publishTags_eventsById]

theorem publishBody_eventsByAddress (cfg : Config) (r : Repo) (e : Event) (a : String)
    (dup : Option Event) :
    (publishBody cfg r e a dup).eventsByAddress =
      (if cfg.isReplaceable e.kind = true then mapSet r.eventsByAddress a e
       else r.eventsByAddress) := by
  cases hw : e.wrap <;> by_cases hr : cfg.isReplaceable e.kind = true <;>
    simp [publishBody, hw, hr, publishTags_eventsByAddress]

theorem publishBody_eventsByDay (cfg : Config) (r : Repo) (e : Event) (a : String)
    (dup : Option Event) :
    (publishBody cfg r e a dup).eventsByDay =
      updateIndex r.eventsByDay (getDay e.created_at) e dup := by
  cases hw : e.wrap <;> by_cases hr : cfg.isReplaceable e.kind = true <;>
    simp [publishBody, hw, hr, publishTags_eventsByDay]

theorem publishBody_eventsByAuthor (cfg : Config) (r : Repo) (e : Event) (a : String)
    (dup : Option Event) :
    (publishBody cfg r e a dup).eventsByAuthor =
      updateIndex r.eventsByAuthor e.pubkey e dup := by
  cases hw : e.wrap <;> by_cases hr : cfg.isReplaceable e.kind = true <;>
    simp [publishBody, hw, hr, publishTags_eventsByAuthor]

theorem publishBody_deletes (cfg : Config) (r : Repo) (e : Event) (a : String)
    (dup : Option Event) :
    (publishBody cfg r e a dup).deletes = (publishTags cfg e dup r).deletes := by
  cases hw : e.wrap <;> by_cases hr : cfg.isReplaceable e.kind = true <;>
    · simp only [publishBody, publishTags, hw, hr]
      apply publishTags_foldl_deletes_ext
      simp [hw, hr]

theorem publishBody_tagB (cfg : Config) (r : Repo) (e : Event) (a : String)
    (dup : Option Event) (k : String) (w : Event) :
    (w ∈ (mapGet (publishBody cfg r e a dup).eventsByTag k).getD [] ↔
      (if k ∈ eTagKeys e
       then ((w ∈ (mapGet r.eventsByTag k).getD [] ∧ ∀ d, dup = some d → w ≠ d) ∨ w = e)
       else w ∈ (mapGet r.eventsByTag k).getD [])) := by
  cases hw : e.wrap <;> by_cases hr : cfg.isReplaceable e.kind = true <;>
    · simp only [publishBody, hw, hr, if_true, if_false]
      rw [publishTags_tagB]
      try simp

/-- Full case analysis of `publish`: either a rejection with the state
unchanged, or acceptance through `publishBody` with or without a superseded
incumbent. -/
theorem publish_cases (cfg : Config) (r : Repo) (e : Event) :
    (publish cfg r e = (r, false) ∧
      ((mapGet r.eventsById e.id).isSome = true ∨ isDeleted r e = true ∨
        ∃ dup, mapGet r.eventsByAddress (getAddress e) = some dup ∧
          e.created_at ≤ dup.created_at)) ∨
    (mapGet r.eventsById e.id = none ∧ isDeleted r e = false ∧
      ((∃ dup, mapGet r.eventsByAddress (getAddress e) = some dup ∧
          dup.created_at < e.created_at ∧
          publish cfg r e =
            (publishBody cfg { r with deletes := mapSet r.deletes dup.id e.created_at }
              e (getAddress e) (some dup), true)) ∨
       (mapGet r.eventsByAddress (getAddress e) = none ∧
        publish cfg r e = (publishBody cfg r e (getAddress e) none, true)))) := by
  by_cases hg : ((mapGet r.eventsById e.id).isSome || isDeleted r e) = true
  · left
    refine ⟨by rw [publish, if_pos hg], ?_⟩
    rcases Bool.or_eq_true_iff.1 hg with h | h
    · exact Or.inl h
    · exact Or.inr (Or.inl h)
  · have hg2 : (mapGet r.eventsById e.id).isSome = false ∧ isDeleted r e = false := by
      rcases hb : (mapGet r.eventsById e.id).isSome <;> rcases hd : isDeleted r e <;>
        simp_all
    have hid : mapGet r.eventsById e.id = none := by
      rcases hm : mapGet r.eventsById e.id with _ | v
      · rfl
      · rw [hm] at hg2; simp at hg2
    cases ha : mapGet r.eventsByAddress (getAddress e) with
    | none =>
      right
      refine ⟨hid, hg2.2, Or.inr ⟨rfl, ?_⟩⟩
      rw [publish, if_neg hg, ha]
    | some dup =>
      by_cases hle : e.created_at ≤ dup.created_at
      · left
        refine ⟨?_, Or.inr (Or.inr ⟨dup, rfl, hle⟩)⟩
        rw [publish, if_neg hg, ha]
        simp [hle]
      · right
        refine ⟨hid, hg2.2, Or.inl ⟨dup, rfl, by omega, ?_⟩⟩
        rw [publish, if_neg hg, ha]
        simp [hle]

theorem publish_rejected_eq (cfg : Config) (r : Repo) (e : Event)
    (h : (publish cfg r e).2 = false) : (publish cfg r e).1 = r := by
  rcases publish_cases cfg r e with ⟨heq, _⟩ | ⟨_, _, ⟨dup, _, _, heq⟩ | ⟨_, heq⟩⟩
  · rw [heq]
  · rw [heq] at h; simp at h
  · rw [heq] at h; simp at h

theorem publish_rejected_iff (cfg : Config) (r : Repo) (e : Event) :
    (publish cfg r e).2 = false ↔
      ((mapGet r.eventsById e.id).isSome = true ∨ isDeleted r e = true ∨
        ∃ dup, mapGet r.eventsByAddress (getAddress e) = some dup ∧
          e.created_at ≤ dup.created_at) := by
  rcases publish_cases cfg r e with ⟨heq, hr⟩ | ⟨hid, hdel, hacc⟩
  · constructor
    · intro _
      exact hr
    · intro _
      rw [heq]
  · constructor
    · intro h
      exfalso
      rcases hacc with ⟨dup, _, _, heq⟩ | ⟨_, heq⟩ <;> rw [heq] at h <;> simp at h
    · rintro (h | h | ⟨dup, hdup, hle⟩)
      · rw [hid] at h; simp at h
      · rw [h] at hdel; simp at hdel
      · rcases hacc with ⟨dup2, hdup2, hlt, _⟩ | ⟨hnone, _⟩
        · rw [hdup] at hdup2
          injection hdup2 with hd
          rw [hd] at hle
          omega
        · rw [hdup] at hnone; simp at hnone

/-! ### Derived facts about publish -/

theorem publish_accepted_eventsById (cfg : Config) (r : Repo) (e : Event)
    (h : (publish cfg r e).2 = true) :
    (publish cfg r e).1.eventsById = r.eventsById ++ [(e.id, e)] := by
  rcases publish_cases cfg r e with ⟨heq, _⟩ | ⟨hid, _, ⟨dup, ha, hlt, heq⟩ | ⟨ha, heq⟩⟩
  · rw [heq] at h
    simp at h
  · have h1 : (publish cfg r e).1 =
        publishBody cfg { r with deletes := mapSet r.deletes dup.id e.created_at }
          e (getAddress e) (some dup) := by rw [heq]
    rw [h1, publishBody_eventsById]
    show mapSet r.eventsById e.id e = _
    exact mapSet_of_none r.eventsById e.id e hid
  · have h1 : (publish cfg r e).1 = publishBody cfg r e (getAddress e) none := by rw [heq]
    rw [h1, publishBody_eventsById]
    exact mapSet_of_none r.eventsById e.id e hid

theorem applyFrom_cons (cfg : Config) (r : Repo) (e : Event) (es : List Event) :
    applyFrom cfg r (e :: es) = applyFrom cfg (publish cfg r e).1 es := rfl

/-- `dump` after a batch of publishes lists the previous contents and then the
accepted events, in acceptance order. -/
theorem dump_applyFrom (cfg : Config) (es : List Event) :
    ∀ r : Repo, dump (applyFrom cfg r es) = dump r ++ acceptedFrom cfg r es := by
  induction es with
  | nil => intro r; simp [applyFrom, acceptedFrom, dump]
  | cons e es ih =>
    intro r
    rw [applyFrom_cons, ih]
    cases hacc : (publish cfg r e).2 with
    | true =>
      have hd : dump (publish cfg r e).1 = dump r ++ [e] := by
        unfold dump
        rw [publish_accepted_eventsById cfg r e hacc, mapValues_append]
        rfl
      rw [acceptedFrom, if_pos hacc, hd]
      simp
    | false =>
      rw [publish_rejected_eq cfg r e hacc, acceptedFrom, if_neg (by simp [hacc])]

/-- Replaying only the accepted events of a batch produces the same state as
replaying the whole batch: rejected publishes are no-ops. -/
theorem applyFrom_accepted (cfg : Config) (es : List Event) :
    ∀ r : Repo, applyFrom cfg r (acceptedFrom cfg r es) = applyFrom cfg r es := by
  induction es with
  | nil => intro r; rfl
  | cons e es ih =>
    intro r
    cases hacc : (publish cfg r e).2 with
    | true => rw [acceptedFrom, if_pos hacc, applyFrom_cons, applyFrom_cons, ih]
    | false =>
      rw [acceptedFrom, if_neg (by simp [hacc]), ih, applyFrom_cons,
        publish_rejected_eq cfg r e hacc]

/-! ### Concrete repository scenarios used as inputs -/

/-- A concrete configuration: kind 30000 is replaceable, kind 5 deletes. -/
def cfgEx : Config := ⟨fun k => decide (k = 30000), 5⟩

def evA : Event := ⟨"aa", "p", 100, 30000, [["d", "x"]], none⟩

def evDel : Event := ⟨"dd", "q", 200, 5, [["e", "aa"]], none⟩

def evE : Event := ⟨"ee", "p", 150, 30000, [["d", "x"]], none⟩

def evX : Event := ⟨"xx", "p", 60, 1, [], none⟩

def evDel50 : Event := ⟨"d5", "q", 50, 5, [["e", "xx"]], none⟩

def evDel70 : Event := ⟨"d7", "q", 70, 5, [["e", "xx"]], none⟩

def evY0 : Event := ⟨"yy", "p", 100, 1, [], none⟩

def evY1 : Event := ⟨"yy", "p", 200, 1, [], none⟩

def evA1 : Event := ⟨"a1", "p", 0, 30000, [["d", "y"]], none⟩

def evB1 : Event := ⟨"b1", "p", 432000, 30000, [["d", "y"]], none⟩

/-! ### Claims -/

/-- C1, counterexample: the tombstone table is not monotone.  After event
`evA` (created_at 100) is stored and a deletion event records tombstone 200
for its id, publishing a superseding event with created_at 150 at the same
address overwrites the tombstone of `"aa"` from 200 down to 150. -/
theorem C1_counterexample :
    mapGet (applyAll cfgEx [evA, evDel]).deletes "aa" = some 200 ∧
    (publish cfgEx (applyAll cfgEx [evA, evDel]) evE).2 = true ∧
    mapGet (publish cfgEx (applyAll cfgEx [evA, evDel]) evE).1.deletes "aa" = some 150 := by
  decide

/-- C1, amended: `publish` never removes a key from `deletes`, and it changes
an existing entry only by raising it (max-merge in the deletion path), or —
when the published event supersedes the incumbent at its address and the key
is that incumbent's id — by overwriting it with the superseding event's
`created_at`, which exceeds the incumbent's `created_at` but may be lower
than the previously recorded tombstone. -/
theorem C1_deletes_amended (cfg : Config) (r : Repo) (e : Event) (k : String)
    (hk : (mapGet r.deletes k).isSome = true) :
    (mapGet (publish cfg r e).1.deletes k).isSome = true ∧
    ((mapGet r.deletes k).getD 0 ≤ (mapGet (publish cfg r e).1.deletes k).getD 0 ∨
     ∃ dup, mapGet r.eventsByAddress (getAddress e) = some dup ∧ k = dup.id ∧
       dup.created_at < e.created_at ∧
       (mapGet (publish cfg r e).1.deletes k).getD 0 = e.created_at) := by
  rcases publish_cases cfg r e with ⟨heq, _⟩ | ⟨hid, hdel, ⟨dup, ha, hlt, heq⟩ | ⟨ha, heq⟩⟩
  · have h1 : (publish cfg r e).1 = r := by rw [heq]
    rw [h1]
    exact ⟨hk, Or.inl le_rfl⟩
  · have h1 : (publish cfg r e).1 =
        publishBody cfg { r with deletes := mapSet r.deletes dup.id e.created_at }
          e (getAddress e) (some dup) := by rw [heq]
    rw [h1, publishBody_deletes]
    have hdich := publishTags_deletes cfg e (some dup)
      { r with deletes := mapSet r.deletes dup.id e.created_at } k
    by_cases hkd : k = dup.id
    · have hval : (mapGet ({ r with deletes := mapSet r.deletes dup.id e.created_at } :
          Repo).deletes k).getD 0 = e.created_at := by
        show (mapGet (mapSet r.deletes dup.id e.created_at) k).getD 0 = e.created_at
        rw [hkd, mapGet_set_self]
        rfl
      have hsome : (mapGet ({ r with deletes := mapSet r.deletes dup.id e.created_at } :
          Repo).deletes k).isSome = true := by
        show (mapGet (mapSet r.deletes dup.id e.created_at) k).isSome = true
        rw [hkd, mapGet_set_self]
        rfl
      refine ⟨hdich.2 hsome, Or.inr ⟨dup, ha, hkd, hlt, ?_⟩⟩
      rcases hdich.1 with hv | hv
      · rw [hv, hval]
      · rw [hv, hval]
        omega
    · have hval : mapGet ({ r with deletes := mapSet r.deletes dup.id e.created_at } :
          Repo).deletes k = mapGet r.deletes k := by
        show mapGet (mapSet r.deletes dup.id e.created_at) k = mapGet r.deletes k
        exact mapGet_set_ne r.deletes dup.id k e.created_at hkd
      refine ⟨hdich.2 (by rw [hval]; exact hk), Or.inl ?_⟩
      rcases hdich.1 with hv | hv
      · rw [hv, hval]
      · rw [hv, hval]
        omega
  · have h1 : (publish cfg r e).1 = publishBody cfg r e (getAddress e) none := by rw [heq]
    rw [h1, publishBody_deletes]
    have hdich := publishTags_deletes cfg e none r k
    refine ⟨hdich.2 hk, Or.inl ?_⟩
    rcases hdich.1 with hv | hv
    · rw [hv]
    · rw [hv]
      omega

theorem C1_amended_witness :
    (mapGet (publish cfgEx (applyAll cfgEx [evX, evDel50]) evY0).1.deletes "xx").isSome
      = true :=
  (C1_deletes_amended cfgEx (applyAll cfgEx [evX, evDel50]) evY0 "xx" (by decide)).1

/-- C4: a tombstone is authoritative only when it strictly postdates its
target — `isDeleted` holds iff the timestamp recorded for the event's id or
address strictly exceeds the event's own `created_at`; concretely, a deletion
at 50 does not tombstone an event created at 60, while a deletion at 70
does. -/
theorem C4_deletion_strictly_postdates :
    (∀ (r : Repo) (e : Event), isDeleted r e = true ↔
      (e.created_at < (mapGet r.deletes (getAddress e)).getD 0 ∨
       e.created_at < (mapGet r.deletes e.id).getD 0)) ∧
    isDeleted (applyAll cfgEx [evX, evDel50]) evX = false ∧
    isDeleted (applyAll cfgEx [evX, evDel70]) evX = true := by
  refine ⟨fun r e => ?_, by decide, by decide⟩
  simp [isDeleted, isDeletedByAddress, isDeletedById, Bool.or_eq_true, decide_eq_true_eq]

/-- C5: every rejected publish — duplicate id, tombstoned event, or stale
replacement — returns false and leaves the state unchanged, and publishing
the same event twice always yields false the second time with no change. -/
theorem C5_rejection_is_benign_noop (cfg : Config) (r : Repo) (e : Event) :
    ((publish cfg r e).2 = false ↔
      ((mapGet r.eventsById e.id).isSome = true ∨ isDeleted r e = true ∨
        ∃ dup, mapGet r.eventsByAddress (getAddress e) = some dup ∧
          e.created_at ≤ dup.created_at)) ∧
    ((publish cfg r e).2 = false → (publish cfg r e).1 = r) ∧
    (publish cfg (publish cfg r e).1 e).2 = false ∧
    (publish cfg (publish cfg r e).1 e).1 = (publish cfg r e).1 := by
  refine ⟨publish_rejected_iff cfg r e, publish_rejected_eq cfg r e, ?_⟩
  cases hacc : (publish cfg r e).2 with
  | false =>
    have hr := publish_rejected_eq cfg r e hacc
    rw [hr]
    exact ⟨hacc, hr⟩
  | true =>
    have hids := publish_accepted_eventsById cfg r e hacc
    have hsome : (mapGet (publish cfg r e).1.eventsById e.id).isSome = true := by
      rw [hids, mapGet_append]
      cases hm : mapGet r.eventsById e.id <;> simp [mapGet]
    have h2 : (publish cfg (publish cfg r e).1 e).2 = false :=
      (publish_rejected_iff cfg _ e).2 (Or.inl hsome)
    exact ⟨h2, publish_rejected_eq cfg _ e h2⟩

/-- C9: `dump()` followed by `load(...)` into a fresh store reproduces the
whole state — in particular the same `eventsById` and the same `query`
results for every filter list and clock. -/
theorem C9_dump_load_roundtrip (cfg : Config) (es : List Event) :
    load cfg (dump (applyAll cfg es)) = applyAll cfg es ∧
    (load cfg (dump (applyAll cfg es))).eventsById = (applyAll cfg es).eventsById ∧
    ∀ (tnow : Nat) (fs : List Filter) (incl : Bool),
      query tnow (load cfg (dump (applyAll cfg es))) fs incl =
        query tnow (applyAll cfg es) fs incl := by
  have h : load cfg (dump (applyAll cfg es)) = applyAll cfg es := by
    unfold load applyAll
    rw [dump_applyFrom]
    have hde : dump Repo.empty = [] := rfl
    rw [hde, List.nil_append, applyFrom_accepted]
  exact ⟨h, by rw [h], fun tnow fs incl => by rw [h]⟩

/-- C10, counterexample: the store holds an event with `evY1`'s id, yet
`hasEvent` is false because the stored event's `created_at` (100) is below
`evY1`'s (200) — the id branch also requires the timestamp comparison. -/
theorem C10_counterexample :
    hasEvent (applyAll cfgEx [evY0]) evY1 = false ∧
    (mapGet (applyAll cfgEx [evY0]).eventsById evY1.id).isSome = true := by
  decide

/-- C10, amended: `hasEvent` is true exactly when the event found by id — or,
only when no id match exists, the event found at the address — has
`created_at` at least the given event's. -/
theorem C10_hasEvent_amended (r : Repo) (e : Event) :
    hasEvent r e = true ↔
      ((∃ d, mapGet r.eventsById e.id = some d ∧ e.created_at ≤ d.created_at) ∨
       (mapGet r.eventsById e.id = none ∧
        ∃ d, mapGet r.eventsByAddress (getAddress e) = some d ∧
          e.created_at ≤ d.created_at)) := by
  unfold hasEvent
  cases h1 : mapGet r.eventsById e.id with
  | some d => simp [h1]
  | none =>
    cases h2 : mapGet r.eventsByAddress (getAddress e) with
    | some d => simp [h2]
    | none => simp [h2]

theorem option_eq_some_nat (o : Option Nat) (v : Nat) (hs : o.isSome = true)
    (hv : o.getD 0 = v) : o = some v := by
  cases o <;> simp_all

/-- C3: at any replaceable address, publishing A (created_at 100), then B
(created_at 100), then C (created_at 101) rejects B with no state change
(ties favor the incumbent), accepts C, tombstones A at 101, removes A from
the day, author and tag buckets, and maps the address to C. -/
theorem C3_replaceable_lww_scenario (cfg : Config) (kind : Nat) (p dv iA iB iC : String)
    (A B C : Event)
    (hrep : cfg.isReplaceable kind = true) (hAB : iA ≠ iB) (hAC : iA ≠ iC)
    (hA : A = ⟨iA, p, 100, kind, [["d", dv]], none⟩)
    (hB : B = ⟨iB, p, 100, kind, [["d", dv]], none⟩)
    (hC : C = ⟨iC, p, 101, kind, [["d", dv]], none⟩) :
    (publish cfg Repo.empty A).2 = true ∧
    (publish cfg (publish cfg Repo.empty A).1 B).2 = false ∧
    (publish cfg (publish cfg Repo.empty A).1 B).1 = (publish cfg Repo.empty A).1 ∧
    (publish cfg (publish cfg Repo.empty A).1 C).2 = true ∧
    mapGet (publish cfg (publish cfg Repo.empty A).1 C).1.deletes iA = some 101 ∧
    (∀ d, A ∉ (mapGet (publish cfg (publish cfg Repo.empty A).1 C).1.eventsByDay d).getD []) ∧
    (∀ q, A ∉ (mapGet (publish cfg (publish cfg Repo.empty A).1 C).1.eventsByAuthor q).getD []) ∧
    (∀ k, A ∉ (mapGet (publish cfg (publish cfg Repo.empty A).1 C).1.eventsByTag k).getD []) ∧
    mapGet (publish cfg (publish cfg Repo.empty A).1 C).1.eventsByAddress (getAddress A) =
      some C := by
  have hAca : A.created_at = 100 := by rw [hA]
  have hBca : B.created_at = 100 := by rw [hB]
  have hCca : C.created_at = 101 := by rw [hC]
  have hAid : A.id = iA := by rw [hA]
  have hCid : C.id = iC := by rw [hC]
  have hCk : C.kind = kind := by rw [hC]
  have hCpk : C.pubkey = p := by rw [hC]
  have hApk : A.pubkey = p := by rw [hA]
  have hAk : A.kind = kind := by rw [hA]
  have haddrBA : getAddress B = getAddress A := by rw [hA, hB]; rfl
  have haddrCA : getAddress C = getAddress A := by rw [hA, hC]; rfl
  have hkeysCA : eTagKeys C = eTagKeys A := by rw [hA, hC]; rfl
  have hACne : A ≠ C := by
    rw [hA, hC]
    simp
  have h1 : publish cfg Repo.empty A =
      (publishBody cfg Repo.empty A (getAddress A) none, true) := by
    rw [hA]
    rfl
  set r1 : Repo := (publish cfg Repo.empty A).1 with hset
  have hr1 : r1 = publishBody cfg Repo.empty A (getAddress A) none := by
    rw [hset, h1]
  have hr1id : r1.eventsById = [(iA, A)] := by
    rw [hr1, publishBody_eventsById, hAid]
    rfl
  have hr1addr : r1.eventsByAddress = [(getAddress A, A)] := by
    rw [hr1, publishBody_eventsByAddress,
      if_pos (show cfg.isReplaceable A.kind = true from by rw [hAk]; exact hrep)]
    rfl
  have hr1day : r1.eventsByDay = [(getDay 100, [A])] := by
    rw [hr1, publishBody_eventsByDay, hAca]
    rfl
  have hr1auth : r1.eventsByAuthor = [(p, [A])] := by
    rw [hr1, publishBody_eventsByAuthor, hApk]
    rfl
  have hr1delB : ∀ k, (mapGet r1.deletes k).getD 0 ≤ 100 := by
    intro k
    rw [hr1, publishBody_deletes]
    rcases (publishTags_deletes cfg A none Repo.empty k).1 with hv | hv
    · rw [hv]
      exact Nat.zero_le 100
    · rw [hv, hAca]
      simp [Repo.empty, mapGet]
  have hr1tag : ∀ k, (A ∈ (mapGet r1.eventsByTag k).getD [] ↔ k ∈ eTagKeys A) := by
    intro k
    rw [hr1]
    rw [publishBody_tagB]
    by_cases hk : k ∈ eTagKeys A
    · simp [hk]
    · simp [hk, Repo.empty, mapGet]
  have hBrej : (publish cfg r1 B).2 = false := by
    apply (publish_rejected_iff cfg r1 B).2
    refine Or.inr (Or.inr ⟨A, ?_, ?_⟩)
    · rw [haddrBA, hr1addr]
      simp [mapGet]
    · rw [hAca, hBca]
  have hBeq := publish_rejected_eq cfg r1 B hBrej
  have hCid2 : mapGet r1.eventsById C.id = none := by
    rw [hr1id, hCid]
    simp [mapGet, hAC]
  have hCdel : isDeleted r1 C = false := by
    unfold isDeleted isDeletedByAddress isDeletedById
    have hv1 := hr1delB (getAddress C)
    have hv2 := hr1delB C.id
    rw [hCca]
    simp only [Bool.or_eq_false_iff, decide_eq_false_iff_not, not_lt]
    omega
  have hCaddr : mapGet r1.eventsByAddress (getAddress C) = some A := by
    rw [haddrCA, hr1addr]
    simp [mapGet]
  rcases publish_cases cfg r1 C with ⟨heq, hreason⟩ |
    ⟨_, _, ⟨dup, ha, hlt, heq⟩ | ⟨ha, heq⟩⟩
  · exfalso
    rcases hreason with h | h | ⟨dup, hdup, hle⟩
    · rw [hCid2] at h
      simp at h
    · rw [hCdel] at h
      simp at h
    · rw [hCaddr] at hdup
      injection hdup with hd
      rw [← hd, hAca, hCca] at hle
      omega
  swap
  · exfalso
    rw [hCaddr] at ha
    simp at ha
  · rw [hCaddr] at ha
    injection ha with hd
    subst hd
    have hacc : (publish cfg r1 C).2 = true := by rw [heq]
    have hr2 : (publish cfg r1 C).1 =
        publishBody cfg { r1 with deletes := mapSet r1.deletes A.id C.created_at }
          C (getAddress C) (some A) := by rw [heq]
    have hd1some : (mapGet ({ r1 with deletes := mapSet r1.deletes A.id C.created_at } :
        Repo).deletes iA).isSome = true := by
      show (mapGet (mapSet r1.deletes A.id C.created_at) iA).isSome = true
      rw [hAid, mapGet_set_self]
      rfl
    have hd1val : (mapGet ({ r1 with deletes := mapSet r1.deletes A.id C.created_at } :
        Repo).deletes iA).getD 0 = C.created_at := by
      show (mapGet (mapSet r1.deletes A.id C.created_at) iA).getD 0 = C.created_at
      rw [hAid, mapGet_set_self]
      rfl
    have hdel2 : mapGet (publish cfg r1 C).1.deletes iA = some 101 := by
      have hdich := publishTags_deletes cfg C (some A)
        { r1 with deletes := mapSet r1.deletes A.id C.created_at } iA
      refine option_eq_some_nat _ _ ?_ ?_
      · rw [hr2, publishBody_deletes]
        exact hdich.2 hd1some
      · rw [hr2, publishBody_deletes]
        rcases hdich.1 with hv | hv
        · rw [hv, hd1val, hCca]
        · rw [hv, hd1val, hCca]
          simp
    have hday2 : (publish cfg r1 C).1.eventsByDay = [(getDay 100, [C])] := by
      rw [hr2, publishBody_eventsByDay]
      have hde : ({ r1 with deletes := mapSet r1.deletes A.id C.created_at } :
          Repo).eventsByDay = [(getDay 100, [A])] := hr1day
      rw [hde, hCca, show getDay 101 = getDay 100 from rfl]
      unfold updateIndex
      simp [mapGet, mapSet]
    have hauth2 : (publish cfg r1 C).1.eventsByAuthor = [(p, [C])] := by
      rw [hr2, publishBody_eventsByAuthor]
      have hau : ({ r1 with deletes := mapSet r1.deletes A.id C.created_at } :
          Repo).eventsByAuthor = [(p, [A])] := hr1auth
      rw [hau, hCpk]
      unfold updateIndex
      simp [mapGet, mapSet]
    have htag2 : ∀ k, A ∉ (mapGet (publish cfg r1 C).1.eventsByTag k).getD [] := by
      intro k hmem
      rw [hr2] at hmem
      rw [publishBody_tagB] at hmem
      by_cases hk : k ∈ eTagKeys C
      · rw [if_pos hk] at hmem
        rcases hmem with ⟨_, hnd⟩ | hAeqC
        · exact (hnd A rfl) rfl
        · exact hACne hAeqC
      · rw [if_neg hk] at hmem
        have hmem2 : A ∈ (mapGet r1.eventsByTag k).getD [] := hmem
        exact hk (hkeysCA ▸ (hr1tag k).1 hmem2)
    have haddr2 : mapGet (publish cfg r1 C).1.eventsByAddress (getAddress A) = some C := by
      rw [hr2, publishBody_eventsByAddress,
        if_pos (show cfg.isReplaceable C.kind = true from by rw [hCk]; exact hrep)]
      have hav : ({ r1 with deletes := mapSet r1.deletes A.id C.created_at } :
          Repo).eventsByAddress = [(getAddress A, A)] := hr1addr
      rw [hav, haddrCA]
      simp [mapSet, mapGet]
    refine ⟨by rw [h1], hBrej, hBeq, hacc, hdel2, ?_, ?_, htag2, haddr2⟩
    · intro d
      rw [hday2]
      by_cases hd0 : getDay 100 = d
      · simp [mapGet, hd0, hACne]
      · simp [mapGet, hd0]
    · intro q
      rw [hauth2]
      by_cases hq : p = q
      · simp [mapGet, hq, hACne]
      · simp [mapGet, hq]

theorem C3_witness :
    (publish cfgEx Repo.empty evA).2 = true ∧
    (publish cfgEx (publish cfgEx Repo.empty evA).1
      (⟨"bb", "p", 100, 30000, [["d", "x"]], none⟩ : Event)).2 = false ∧
    (publish cfgEx (publish cfgEx Repo.empty evA).1
      (⟨"bb", "p", 100, 30000, [["d", "x"]], none⟩ : Event)).1 =
      (publish cfgEx Repo.empty evA).1 ∧
    (publish cfgEx (publish cfgEx Repo.empty evA).1
      (⟨"cc", "p", 101, 30000, [["d", "x"]], none⟩ : Event)).2 = true ∧
    mapGet (publish cfgEx (publish cfgEx Repo.empty evA).1
      (⟨"cc", "p", 101, 30000, [["d", "x"]], none⟩ : Event)).1.deletes "aa" = some 101 ∧
    (∀ d, evA ∉ (mapGet (publish cfgEx (publish cfgEx Repo.empty evA).1
      (⟨"cc", "p", 101, 30000, [["d", "x"]], none⟩ : Event)).1.eventsByDay d).getD []) ∧
    (∀ q, evA ∉ (mapGet (publish cfgEx (publish cfgEx Repo.empty evA).1
      (⟨"cc", "p", 101, 30000, [["d", "x"]], none⟩ : Event)).1.eventsByAuthor q).getD []) ∧
    (∀ k, evA ∉ (mapGet (publish cfgEx (publish cfgEx Repo.empty evA).1
      (⟨"cc", "p", 101, 30000, [["d", "x"]], none⟩ : Event)).1.eventsByTag k).getD []) ∧
    mapGet (publish cfgEx (publish cfgEx Repo.empty evA).1
      (⟨"cc", "p", 101, 30000, [["d", "x"]], none⟩ : Event)).1.eventsByAddress
      (getAddress evA) = some (⟨"cc", "p", 101, 30000, [["d", "x"]], none⟩ : Event) :=
  C3_replaceable_lww_scenario cfgEx 30000 "p" "x" "aa" "bb" "cc" evA
    (⟨"bb", "p", 100, 30000, [["d", "x"]], none⟩ : Event)
    (⟨"cc", "p", 101, 30000, [["d", "x"]], none⟩ : Event)
    (by decide) (by decide) (by decide) rfl rfl rfl

theorem mapGet_append_left {κ α : Type} [DecidableEq κ] (m m2 : List (κ × α)) (k : κ)
    (v : α) (h : mapGet m k = some v) : mapGet (m ++ m2) k = some v := by
  rw [mapGet_append, h]
  rfl

theorem mem_filterMap_eTagKeys (e : Event) (t : List String) (t0 : String)
    (rest : List String) (ht : t ∈ e.tags) (heq : t = t0 :: rest)
    (hlen : t0.length = 1) : tagKey t ∈ eTagKeys e := by
  unfold eTagKeys tagIndexKeys
  rw [List.mem_filterMap]
  refine ⟨t, ht, ?_⟩
  rw [heq]
  simp [hlen]

theorem eTagKeys_elim (e : Event) (k : String) (h : k ∈ eTagKeys e) :
    ∃ t ∈ e.tags, ∃ t0 rest, t = t0 :: rest ∧ t0.length = 1 ∧ tagKey t = k := by
  unfold eTagKeys tagIndexKeys at h
  rw [List.mem_filterMap] at h
  obtain ⟨t, ht, hf⟩ := h
  rcases t with _ | ⟨t0, rest⟩
  · simp at hf
  · by_cases hlen : t0.length = 1
    · simp only [hlen, if_true] at hf
      exact ⟨t0 :: rest, ht, t0, rest, rfl, hlen, by injection hf⟩
    · simp [hlen] at hf

/-- Everything `publish` does when it accepts an event, relative to the prior
state: the superseded incumbent (if any), the new `eventsById` entry, the
address overwrite, the three bucket updates, and how `deletes` can change. -/
theorem publish_accepted_spec (cfg : Config) (r : Repo) (e : Event)
    (hacc : (publish cfg r e).2 = true) :
    ∃ dupOpt : Option Event,
      dupOpt = mapGet r.eventsByAddress (getAddress e) ∧
      mapGet r.eventsById e.id = none ∧
      isDeleted r e = false ∧
      (∀ d, dupOpt = some d → d.created_at < e.created_at) ∧
      (publish cfg r e).1.eventsById = r.eventsById ++ [(e.id, e)] ∧
      (publish cfg r e).1.eventsByAddress =
        (if cfg.isReplaceable e.kind = true then mapSet r.eventsByAddress (getAddress e) e
         else r.eventsByAddress) ∧
      (publish cfg r e).1.eventsByDay =
        updateIndex r.eventsByDay (getDay e.created_at) e dupOpt ∧
      (publish cfg r e).1.eventsByAuthor = updateIndex r.eventsByAuthor e.pubkey e dupOpt ∧
      (∀ k w, w ∈ (mapGet (publish cfg r e).1.eventsByTag k).getD [] ↔
        (if k ∈ eTagKeys e
         then ((w ∈ (mapGet r.eventsByTag k).getD [] ∧ ∀ d, dupOpt = some d → w ≠ d) ∨ w = e)
         else w ∈ (mapGet r.eventsByTag k).getD [])) ∧
      (∀ k, ((∀ d, dupOpt = some d → k ≠ d.id) →
          ((mapGet (publish cfg r e).1.deletes k).getD 0 = (mapGet r.deletes k).getD 0 ∨
           (mapGet (publish cfg r e).1.deletes k).getD 0 =
             max e.created_at ((mapGet r.deletes k).getD 0))) ∧
        (∀ d, dupOpt = some d → k = d.id →
          (mapGet (publish cfg r e).1.deletes k).getD 0 = e.created_at ∧
          (mapGet (publish cfg r e).1.deletes k).isSome = true) ∧
        ((mapGet r.deletes k).isSome = true →
          (mapGet (publish cfg r e).1.deletes k).isSome = true)) := by
  rcases publish_cases cfg r e with ⟨heq, _⟩ | ⟨hid, hdel, ⟨dup, ha, hlt, heq⟩ | ⟨ha, heq⟩⟩
  · rw [heq] at hacc
    simp at hacc
  · refine ⟨some dup, ha.symm, hid, hdel, fun d hd => by injection hd with hd2; subst hd2; omega,
      ?_, ?_, ?_, ?_, ?_, ?_⟩
    · exact publish_accepted_eventsById cfg r e hacc
    · have h1 : (publish cfg r e).1 =
          publishBody cfg { r with deletes := mapSet r.deletes dup.id e.created_at }
            e (getAddress e) (some dup) := by rw [heq]
      rw [h1, publishBody_eventsByAddress]
    · have h1 : (publish cfg r e).1 =
          publishBody cfg { r with deletes := mapSet r.deletes dup.id e.created_at }
            e (getAddress e) (some dup) := by rw [heq]
      rw [h1, publishBody_eventsByDay]
    · have h1 : (publish cfg r e).1 =
          publishBody cfg { r with deletes := mapSet r.deletes dup.id e.created_at }
            e (getAddress e) (some dup) := by rw [heq]
      rw [h1, publishBody_eventsByAuthor]
    · intro k w
      have h1 : (publish cfg r e).1 =
          publishBody cfg { r with deletes := mapSet r.deletes dup.id e.created_at }
            e (getAddress e) (some dup) := by rw [heq]
      rw [h1]
      exact publishBody_tagB cfg _ e (getAddress e) (some dup) k w
    · intro k
      have h1 : (publish cfg r e).1 =
          publishBody cfg { r with deletes := mapSet r.deletes dup.id e.created_at }
            e (getAddress e) (some dup) := by rw [heq]
      have hdich := publishTags_deletes cfg e (some dup)
        { r with deletes := mapSet r.deletes dup.id e.created_at } k
      refine ⟨?_, ?_, ?_⟩
      · intro hne
        have hkd : k ≠ dup.id := hne dup rfl
        have hval : mapGet ({ r with deletes := mapSet r.deletes dup.id e.created_at } :
            Repo).deletes k = mapGet r.deletes k :=
          mapGet_set_ne r.deletes dup.id k e.created_at hkd
        rw [h1, publishBody_deletes]
        rcases hdich.1 with hv | hv
        · rw [hv, hval]
          exact Or.inl rfl
        · rw [hv, hval]
          exact Or.inr rfl
      · intro d hd hkd
        injection hd with hd2
        subst hd2
        have hval : (mapGet ({ r with deletes := mapSet r.deletes dup.id e.created_at } :
            Repo).deletes k).getD 0 = e.created_at := by
          show (mapGet (mapSet r.deletes dup.id e.created_at) k).getD 0 = e.created_at
          rw [hkd, mapGet_set_self]
          rfl
        have hsome : (mapGet ({ r with deletes := mapSet r.deletes dup.id e.created_at } :
            Repo).deletes k).isSome = true := by
          show (mapGet (mapSet r.deletes dup.id e.created_at) k).isSome = true
          rw [hkd, mapGet_set_self]
          rfl
        refine ⟨?_, by rw [h1, publishBody_deletes]; exact hdich.2 hsome⟩
        rw [h1, publishBody_deletes]
        rcases hdich.1 with hv | hv
        · rw [hv, hval]
        · rw [hv, hval]
          simp
      · intro hs
        rw [h1, publishBody_deletes]
        apply hdich.2
        by_cases hkd : k = dup.id
        · show (mapGet (mapSet r.deletes dup.id e.created_at) k).isSome = true
          rw [hkd, mapGet_set_self]
          rfl
        · show (mapGet (mapSet r.deletes dup.id e.created_at) k).isSome = true
          rw [mapGet_set_ne r.deletes dup.id k e.created_at hkd]
          exact hs
  · refine ⟨none, ha.symm, hid, hdel, fun d hd => by simp at hd, ?_, ?_, ?_, ?_, ?_, ?_⟩
    · exact publish_accepted_eventsById cfg r e hacc
    · have h1 : (publish cfg r e).1 = publishBody cfg r e (getAddress e) none := by rw [heq]
      rw [h1, publishBody_eventsByAddress]
    · have h1 : (publish cfg r e).1 = publishBody cfg r e (getAddress e) none := by rw [heq]
      rw [h1, publishBody_eventsByDay]
    · have h1 : (publish cfg r e).1 = publishBody cfg r e (getAddress e) none := by rw [heq]
      rw [h1, publishBody_eventsByAuthor]
    · intro k w
      have h1 : (publish cfg r e).1 = publishBody cfg r e (getAddress e) none := by rw [heq]
      rw [h1]
      exact publishBody_tagB cfg r e (getAddress e) none k w
    · intro k
      have h1 : (publish cfg r e).1 = publishBody cfg r e (getAddress e) none := by rw [heq]
      have hdich := publishTags_deletes cfg e none r k
      refine ⟨fun _ => ?_, fun d hd => by simp at hd, fun hs => ?_⟩
      · rw [h1, publishBody_deletes]
        exact hdich.1
      · rw [h1, publishBody_deletes]
        exact hdich.2 hs

/-! ### The reachability invariant -/

/-- The invariant every reachable repository state satisfies: ids are
faithful keys, every stored event sits in its day/author/tag buckets unless
tombstoned by id, bucket members are stored events matching their bucket key,
and the address index holds the newest replaceable event of each address. -/
structure Inv (cfg : Config) (r : Repo) : Prop where
  idKey : ∀ i w, mapGet r.eventsById i = some w → w.id = i
  idFaithful : ∀ w ∈ mapValues r.eventsById, mapGet r.eventsById w.id = some w
  dayIn : ∀ w ∈ mapValues r.eventsById,
    w ∈ (mapGet r.eventsByDay (getDay w.created_at)).getD [] ∨
      w.created_at < (mapGet r.deletes w.id).getD 0
  authIn : ∀ w ∈ mapValues r.eventsById,
    w ∈ (mapGet r.eventsByAuthor w.pubkey).getD [] ∨
      w.created_at < (mapGet r.deletes w.id).getD 0
  tagIn : ∀ w ∈ mapValues r.eventsById, ∀ t0 rest, t0 :: rest ∈ w.tags →
    t0.length = 1 →
    (w ∈ (mapGet r.eventsByTag (tagKey (t0 :: rest))).getD [] ∨
      w.created_at < (mapGet r.deletes w.id).getD 0)
  daySound : ∀ d w, w ∈ (mapGet r.eventsByDay d).getD [] →
    mapGet r.eventsById w.id = some w
  authSound : ∀ q w, w ∈ (mapGet r.eventsByAuthor q).getD [] →
    mapGet r.eventsById w.id = some w ∧ w.pubkey = q
  tagSound : ∀ k w, w ∈ (mapGet r.eventsByTag k).getD [] →
    mapGet r.eventsById w.id = some w ∧
      ∃ t0 rest, t0 :: rest ∈ w.tags ∧ t0.length = 1 ∧ tagKey (t0 :: rest) = k
  addrKey : ∀ a v, mapGet r.eventsByAddress a = some v →
    getAddress v = a ∧ cfg.isReplaceable v.kind = true ∧
      mapGet r.eventsById v.id = some v ∧
      ∀ w ∈ mapValues r.eventsById, getAddress w = a → w.created_at ≤ v.created_at
  replCov : ∀ w ∈ mapValues r.eventsById, cfg.isReplaceable w.kind = true →
    ∃ v, mapGet r.eventsByAddress (getAddress w) = some v ∧ w.created_at ≤ v.created_at

theorem Inv_empty (cfg : Config) : Inv cfg Repo.empty := by
  constructor <;> simp [Repo.empty, mapValues, mapGet]

theorem publish_preserves_Inv (cfg : Config) (r : Repo) (e : Event) (hinv : Inv cfg r) :
    Inv cfg (publish cfg r e).1 := by
  cases hacc : (publish cfg r e).2 with
  | false =>
    rw [publish_rejected_eq cfg r e hacc]
    exact hinv
  | true =>
    obtain ⟨dupOpt, hdup, hid, hdel, hdlt, hIds, hAddr, hDay, hAuth, hTag, hDel⟩ :=
      publish_accepted_spec cfg r e hacc
    have hvals : mapValues (publish cfg r e).1.eventsById = mapValues r.eventsById ++ [e] := by
      rw [hIds, mapValues_append]
      rfl
    have hget_old : ∀ i w, mapGet r.eventsById i = some w →
        mapGet (publish cfg r e).1.eventsById i = some w := by
      intro i w hw
      rw [hIds]
      exact mapGet_append_left _ _ _ _ hw
    have hget_new : ∀ i, mapGet r.eventsById i = none →
        mapGet (publish cfg r e).1.eventsById i = if e.id = i then some e else none := by
      intro i hnone
      rw [hIds, mapGet_append, hnone]
      rfl
    have hEstored : mapGet (publish cfg r e).1.eventsById e.id = some e := by
      rw [hget_new e.id hid]
      simp
    have hget_inv : ∀ i w, mapGet (publish cfg r e).1.eventsById i = some w →
        mapGet r.eventsById i = some w ∨ (w = e ∧ i = e.id) := by
      intro i w hw
      cases hm : mapGet r.eventsById i with
      | some v =>
        rw [hget_old i v hm] at hw
        injection hw with h2
        exact Or.inl (by rw [h2])
      | none =>
        rw [hget_new i hm] at hw
        by_cases hie : e.id = i
        · rw [if_pos hie] at hw
          injection hw with h2
          exact Or.inr ⟨h2.symm, hie.symm⟩
        · rw [if_neg hie] at hw
          simp at hw
    have hdupfacts : ∀ d, dupOpt = some d →
        getAddress d = getAddress e ∧ cfg.isReplaceable d.kind = true ∧
        mapGet r.eventsById d.id = some d ∧
        ∀ w ∈ mapValues r.eventsById, getAddress w = getAddress e →
          w.created_at ≤ d.created_at := by
      intro d hd
      rw [hd] at hdup
      exact hinv.addrKey (getAddress e) d hdup.symm
    have hF_tsb : ∀ w, mapGet r.eventsById w.id = some w →
        w.created_at < (mapGet r.deletes w.id).getD 0 →
        w.created_at < (mapGet (publish cfg r e).1.deletes w.id).getD 0 := by
      intro w hw hts
      by_cases hcase : ∀ d, dupOpt = some d → w.id ≠ d.id
      · rcases (hDel w.id).1 hcase with hv | hv
        · rw [hv]
          exact hts
        · rw [hv]
          have := Nat.le_max_right e.created_at ((mapGet r.deletes w.id).getD 0)
          omega
      · push_neg at hcase
        obtain ⟨d, hd, hde⟩ := hcase
        have hfacts := hdupfacts d hd
        have hwd : w = d := by
          have hx := hfacts.2.2.1
          rw [← hde] at hx
          exact Option.some.inj (hw.symm.trans hx)
        have hval := ((hDel w.id).2.1 d hd hde).1
        rw [hval, hwd]
        exact hdlt d hd
    have hF_dup_tsb : ∀ d, dupOpt = some d →
        d.created_at < (mapGet (publish cfg r e).1.deletes d.id).getD 0 := by
      intro d hd
      have hval := ((hDel d.id).2.1 d hd rfl).1
      rw [hval]
      exact hdlt d hd
    have hDayMem : ∀ d w2, w2 ∈ (mapGet (publish cfg r e).1.eventsByDay d).getD [] ↔
        (if d = getDay e.created_at
         then ((w2 ∈ (mapGet r.eventsByDay (getDay e.created_at)).getD [] ∧
            ∀ x, dupOpt = some x → w2 ≠ x) ∨ w2 = e)
         else w2 ∈ (mapGet r.eventsByDay d).getD []) := by
      intro d w2
      rw [hDay]
      exact bucket_updateIndex r.eventsByDay (getDay e.created_at) d e dupOpt w2
    have hAuthMem : ∀ q w2, w2 ∈ (mapGet (publish cfg r e).1.eventsByAuthor q).getD [] ↔
        (if q = e.pubkey
         then ((w2 ∈ (mapGet r.eventsByAuthor e.pubkey).getD [] ∧
            ∀ x, dupOpt = some x → w2 ≠ x) ∨ w2 = e)
         else w2 ∈ (mapGet r.eventsByAuthor q).getD []) := by
      intro q w2
      rw [hAuth]
      exact bucket_updateIndex r.eventsByAuthor e.pubkey q e dupOpt w2
    refine ⟨?_, ?_, ?_, ?_, ?_, ?_, ?_, ?_, ?_, ?_⟩
    · intro i w hw
      rcases hget_inv i w hw with h | ⟨rfl, rfl⟩
      · exact hinv.idKey i w h
      · rfl
    · intro w hw
      rw [hvals] at hw
      rcases List.mem_append.1 hw with h | h
      · exact hget_old _ _ (hinv.idFaithful w h)
      · rcases List.mem_singleton.1 h with rfl
        exact hEstored
    · intro w hw
      rw [hvals] at hw
      rcases List.mem_append.1 hw with h | h
      · rcases hinv.dayIn w h with hmem | hts
        · by_cases hwd : ∀ x, dupOpt = some x → w ≠ x
          · left
            rw [hDayMem]
            by_cases hd : getDay w.created_at = getDay e.created_at
            · rw [if_pos hd]
              rw [hd] at hmem
              exact Or.inl ⟨hmem, hwd⟩
            · rw [if_neg hd]
              exact hmem
          · right
            push_neg at hwd
            obtain ⟨x, hx, rfl⟩ := hwd
            exact hF_dup_tsb w hx
        · right
          exact hF_tsb w (hinv.idFaithful w h) hts
      · rcases List.mem_singleton.1 h with rfl
        left
        rw [hDayMem, if_pos rfl]
        exact Or.inr rfl
    · intro w hw
      rw [hvals] at hw
      rcases List.mem_append.1 hw with h | h
      · rcases hinv.authIn w h with hmem | hts
        · by_cases hwd : ∀ x, dupOpt = some x → w ≠ x
          · left
            rw [hAuthMem]
            by_cases hq : w.pubkey = e.pubkey
            · rw [if_pos hq]
              rw [hq] at hmem
              exact Or.inl ⟨hmem, hwd⟩
            · rw [if_neg hq]
              exact hmem
          · right
            push_neg at hwd
            obtain ⟨x, hx, rfl⟩ := hwd
            exact hF_dup_tsb w hx
        · right
          exact hF_tsb w (hinv.idFaithful w h) hts
      · rcases List.mem_singleton.1 h with rfl
        left
        rw [hAuthMem, if_pos rfl]
        exact Or.inr rfl
    · intro w hw t0 rest hmt hlen
      rw [hvals] at hw
      rcases List.mem_append.1 hw with h | h
      · rcases hinv.tagIn w h t0 rest hmt hlen with hmem | hts
        · by_cases hwd : ∀ x, dupOpt = some x → w ≠ x
          · left
            rw [hTag]
            by_cases hk : tagKey (t0 :: rest) ∈ eTagKeys e
            · rw [if_pos hk]
              exact Or.inl ⟨hmem, hwd⟩
            · rw [if_neg hk]
              exact hmem
          · right
            push_neg at hwd
            obtain ⟨x, hx, rfl⟩ := hwd
            exact hF_dup_tsb w hx
        · right
          exact hF_tsb w (hinv.idFaithful w h) hts
      · rcases List.mem_singleton.1 h with rfl
        left
        rw [hTag, if_pos (mem_filterMap_eTagKeys w (t0 :: rest) t0 rest hmt rfl hlen)]
        exact Or.inr rfl
    · intro d w hw
      rw [hDayMem] at hw
      by_cases hd : d = getDay e.created_at
      · rw [if_pos hd] at hw
        rcases hw with ⟨hold, _⟩ | rfl
        · exact hget_old _ _ (hinv.daySound (getDay e.created_at) w hold)
        · exact hEstored
      · rw [if_neg hd] at hw
        exact hget_old _ _ (hinv.daySound d w hw)
    · intro q w hw
      rw [hAuthMem] at hw
      by_cases hq : q = e.pubkey
      · rw [if_pos hq] at hw
        rcases hw with ⟨hold, _⟩ | rfl
        · obtain ⟨hst, hpk⟩ := hinv.authSound e.pubkey w hold
          exact ⟨hget_old _ _ hst, hq ▸ hpk⟩
        · exact ⟨hEstored, hq.symm⟩
      · rw [if_neg hq] at hw
        obtain ⟨hst, hpk⟩ := hinv.authSound q w hw
        exact ⟨hget_old _ _ hst, hpk⟩
    · intro k w hw
      rw [hTag] at hw
      by_cases hk : k ∈ eTagKeys e
      · rw [if_pos hk] at hw
        rcases hw with ⟨hold, _⟩ | rfl
        · obtain ⟨hst, hex⟩ := hinv.tagSound k w hold
          exact ⟨hget_old _ _ hst, hex⟩
        · obtain ⟨t, ht, t0, rest, heqt, hlen, htk⟩ := eTagKeys_elim w k hk
          exact ⟨hEstored, t0, rest, heqt ▸ ht, hlen, heqt ▸ htk⟩
      · rw [if_neg hk] at hw
        obtain ⟨hst, hex⟩ := hinv.tagSound k w hw
        exact ⟨hget_old _ _ hst, hex⟩
    · intro a v hv
      by_cases hrepl : cfg.isReplaceable e.kind = true
      · rw [hAddr, if_pos hrepl, mapGet_set] at hv
        by_cases haa : a = getAddress e
        · rw [if_pos haa] at hv
          injection hv with hv2
          subst hv2
          refine ⟨haa.symm, hrepl, hEstored, ?_⟩
          intro w hw hwa
          rw [hvals] at hw
          rcases List.mem_append.1 hw with h | h
          · cases hdo : dupOpt with
            | some d =>
              have hfacts := hdupfacts d hdo
              have h1 := hfacts.2.2.2 w h (haa ▸ hwa)
              have h2 := hdlt d hdo
              omega
            | none =>
              exfalso
              have hkind : w.kind = e.kind := getAddress_kind_eq w e (by rw [hwa, haa])
              have hreplw : cfg.isReplaceable w.kind = true := by
                rw [hkind]
                exact hrepl
              obtain ⟨v2, hv2b, _⟩ := hinv.replCov w h hreplw
              rw [hwa, haa] at hv2b
              rw [hdo] at hdup
              rw [← hdup] at hv2b
              simp at hv2b
          · rcases List.mem_singleton.1 h with rfl
            exact le_rfl
        · rw [if_neg haa] at hv
          obtain ⟨hva, hvrepl, hvstored, hvmax⟩ := hinv.addrKey a v hv
          refine ⟨hva, hvrepl, hget_old _ _ hvstored, ?_⟩
          intro w hw hwa
          rw [hvals] at hw
          rcases List.mem_append.1 hw with h | h
          · exact hvmax w h hwa
          · rcases List.mem_singleton.1 h with rfl
            exact absurd hwa.symm haa
      · rw [hAddr, if_neg hrepl] at hv
        obtain ⟨hva, hvrepl, hvstored, hvmax⟩ := hinv.addrKey a v hv
        refine ⟨hva, hvrepl, hget_old _ _ hvstored, ?_⟩
        intro w hw hwa
        rw [hvals] at hw
        rcases List.mem_append.1 hw with h | h
        · exact hvmax w h hwa
        · rcases List.mem_singleton.1 h with rfl
          exfalso
          have hkind : v.kind = w.kind := getAddress_kind_eq v w (by rw [hva, hwa])
          rw [hkind] at hvrepl
          exact absurd hvrepl hrepl
    · intro w hw hreplw
      rw [hvals] at hw
      rcases List.mem_append.1 hw with h | h
      · obtain ⟨v, hv, hle⟩ := hinv.replCov w h hreplw
        by_cases hrepl : cfg.isReplaceable e.kind = true
        · rw [hAddr, if_pos hrepl, mapGet_set]
          by_cases haa : getAddress w = getAddress e
          · rw [if_pos haa]
            refine ⟨e, rfl, ?_⟩
            cases hdo : dupOpt with
            | some d =>
              have hfacts := hdupfacts d hdo
              have h1 := hfacts.2.2.2 w h haa
              have h2 := hdlt d hdo
              omega
            | none =>
              exfalso
              rw [haa] at hv
              rw [hdo] at hdup
              rw [← hdup] at hv
              simp at hv
          · rw [if_neg haa]
            exact ⟨v, hv, hle⟩
        · rw [hAddr, if_neg hrepl]
          exact ⟨v, hv, hle⟩
      · rcases List.mem_singleton.1 h with rfl
        rw [hAddr, if_pos hreplw, mapGet_set, if_pos rfl]
        exact ⟨w, rfl, le_rfl⟩

theorem Inv_applyFrom (cfg : Config) (es : List Event) :
    ∀ r : Repo, Inv cfg r → Inv cfg (applyFrom cfg r es) := by
  induction es with
  | nil => intro r h; exact h
  | cons e es ih =>
    intro r h
    rw [applyFrom_cons]
    exact ih _ (publish_preserves_Inv cfg r e h)

theorem Inv_applyAll (cfg : Config) (es : List Event) : Inv cfg (applyAll cfg es) :=
  Inv_applyFrom cfg es Repo.empty (Inv_empty cfg)

/-- C2, counterexample: a supersession does not remove the incumbent from
every per-day bucket.  `evA1` (day 0) is superseded by `evB1` (day 5), yet it
is still in day bucket 0 afterwards — only the superseding event's own day
bucket is cleaned. -/
theorem C2_counterexample :
    mapGet (applyAll cfgEx [evA1]).eventsByAddress (getAddress evB1) = some evA1 ∧
    (publish cfgEx (applyAll cfgEx [evA1]) evB1).2 = true ∧
    evA1 ∈ (mapGet (applyAll cfgEx [evA1, evB1]).eventsByDay (getDay evA1.created_at)).getD []
    := by decide

/-- C2, amended: when `publish` accepts an event that supersedes the
incumbent at its address in a reachable state, afterwards the address maps to
the superseding event, whose `created_at` is the greatest among all events
ever accepted at that address; the incumbent remains in `eventsById`;
`deletes` records the incumbent's id at the superseding event's timestamp;
and the incumbent is absent from the superseding event's day bucket, from the
author bucket keyed by the superseding event's pubkey, and from every tag
bucket keyed by the superseding event's indexed tags (it may remain in day
buckets of other days and in tag buckets of tags the superseding event does
not carry). -/
theorem C2_supersession_amended (cfg : Config) (es : List Event) (e dup : Event)
    (ha : mapGet (applyAll cfg es).eventsByAddress (getAddress e) = some dup)
    (hacc : (publish cfg (applyAll cfg es) e).2 = true) :
    mapGet (publish cfg (applyAll cfg es) e).1.eventsByAddress (getAddress e) = some e ∧
    (∀ w ∈ acceptedFrom cfg Repo.empty (es ++ [e]), getAddress w = getAddress e →
      w.created_at ≤ e.created_at) ∧
    mapGet (publish cfg (applyAll cfg es) e).1.eventsById dup.id = some dup ∧
    mapGet (publish cfg (applyAll cfg es) e).1.deletes dup.id = some e.created_at ∧
    dup ∉ (mapGet (publish cfg (applyAll cfg es) e).1.eventsByDay
      (getDay e.created_at)).getD [] ∧
    dup ∉ (mapGet (publish cfg (applyAll cfg es) e).1.eventsByAuthor e.pubkey).getD [] ∧
    ∀ k ∈ eTagKeys e,
      dup ∉ (mapGet (publish cfg (applyAll cfg es) e).1.eventsByTag k).getD [] := by
  have hinv := Inv_applyAll cfg es
  obtain ⟨dupOpt, hdup, hid, hdel, hdlt, hIds, hAddr, hDay, hAuth, hTag, hDel⟩ :=
    publish_accepted_spec cfg (applyAll cfg es) e hacc
  have hdo : dupOpt = some dup := by rw [hdup, ha]
  have hlt : dup.created_at < e.created_at := hdlt dup hdo
  have hne : dup ≠ e := by
    intro h
    rw [h] at hlt
    omega
  have hdupkey := hinv.addrKey (getAddress e) dup ha
  have hrepl : cfg.isReplaceable e.kind = true := by
    have hkind : dup.kind = e.kind := getAddress_kind_eq dup e hdupkey.1
    rw [← hkind]
    exact hdupkey.2.1
  have hi : mapGet (publish cfg (applyAll cfg es) e).1.eventsByAddress (getAddress e) =
      some e := by
    rw [hAddr, if_pos hrepl, mapGet_set, if_pos rfl]
  refine ⟨hi, ?_, ?_, ?_, ?_, ?_, ?_⟩
  · have hinv2 := publish_preserves_Inv cfg (applyAll cfg es) e hinv
    have hmax := (hinv2.addrKey (getAddress e) e hi).2.2.2
    intro w hw hwa
    have h2 : applyFrom cfg Repo.empty (es ++ [e]) = (publish cfg (applyAll cfg es) e).1 := by
      unfold applyFrom applyAll
      rw [List.foldl_append]
      rfl
    have h1 := dump_applyFrom cfg (es ++ [e]) Repo.empty
    rw [h2, show dump Repo.empty = ([] : List Event) from rfl, List.nil_append] at h1
    have hconv : acceptedFrom cfg Repo.empty (es ++ [e]) =
        mapValues (publish cfg (applyAll cfg es) e).1.eventsById := h1.symm
    rw [hconv] at hw
    exact hmax w hw hwa
  · rw [hIds]
    exact mapGet_append_left _ _ _ _ hdupkey.2.2.1
  · obtain ⟨hval, hsome⟩ := (hDel dup.id).2.1 dup hdo rfl
    exact option_eq_some_nat _ _ hsome hval
  · intro hmem
    rw [hDay] at hmem
    have := (bucket_updateIndex (applyAll cfg es).eventsByDay (getDay e.created_at)
      (getDay e.created_at) e dupOpt dup).1 hmem
    rw [if_pos rfl] at this
    rcases this with ⟨_, hnd⟩ | heq
    · exact (hnd dup hdo) rfl
    · exact hne heq
  · intro hmem
    rw [hAuth] at hmem
    have := (bucket_updateIndex (applyAll cfg es).eventsByAuthor e.pubkey e.pubkey e
      dupOpt dup).1 hmem
    rw [if_pos rfl] at this
    rcases this with ⟨_, hnd⟩ | heq
    · exact (hnd dup hdo) rfl
    · exact hne heq
  · intro k hk hmem
    have := (hTag k dup).1 hmem
    rw [if_pos hk] at this
    rcases this with ⟨_, hnd⟩ | heq
    · exact (hnd dup hdo) rfl
    · exact hne heq

theorem C2_amended_witness :
    mapGet (publish cfgEx (applyAll cfgEx [evA1]) evB1).1.deletes evA1.id =
      some evB1.created_at :=
  (C2_supersession_amended cfgEx [evA1] evB1 evA1 (by decide) (by decide)).2.2.2.1

/-! ### Query narrowing: soundness and completeness -/

theorem contains_iff_mem {α : Type} [BEq α] [LawfulBEq α] (l : List α) (a : α) :
    l.contains a = true ↔ a ∈ l := List.elem_iff

theorem nodup_keys_eq {α β : Type} (l : List (α × β)) (h : (l.map Prod.fst).Nodup)
    (a b : α × β) (ha : a ∈ l) (hb : b ∈ l) (hfst : a.1 = b.1) : a = b := by
  induction l with
  | nil => simp at ha
  | cons c cs ih =>
    rw [List.map_cons, List.nodup_cons] at h
    rcases List.mem_cons.1 ha with rfl | ha2 <;> rcases List.mem_cons.1 hb with rfl | hb2
    · rfl
    · exfalso
      have hmem : b.1 ∈ cs.map Prod.fst := List.mem_map_of_mem Prod.fst hb2
      rw [← hfst] at hmem
      exact h.1 hmem
    · exfalso
      have hmem : a.1 ∈ cs.map Prod.fst := List.mem_map_of_mem Prod.fst ha2
      rw [hfst] at hmem
      exact h.1 hmem
    · exact ih h.2 ha2 hb2

theorem optMemB_iff {α : Type} [BEq α] [LawfulBEq α] (o : Option (List α)) (a : α) :
    optMemB o a = true ↔ ∀ l, o = some l → a ∈ l := by
  cases o <;> simp [optMemB, contains_iff_mem]

theorem optSinceB_iff (o : Option Nat) (c : Nat) :
    optSinceB o c = true ↔ ∀ s, o = some s → s ≤ c := by
  cases o <;> simp [optSinceB]

theorem optUntilB_iff (o : Option Nat) (c : Nat) :
    optUntilB o c = true ↔ ∀ u, o = some u → c ≤ u := by
  cases o <;> simp [optUntilB]

/-- Component-wise reading of `matchFilter`. -/
theorem matchFilter_iff (f : Filter) (x : Event) :
    matchFilter f x = true ↔
      ((∀ l, f.ids = some l → x.id ∈ l) ∧
       (∀ l, f.authors = some l → x.pubkey ∈ l) ∧
       (∀ l, f.kinds = some l → x.kind ∈ l) ∧
       (∀ s, f.since = some s → s ≤ x.created_at) ∧
       (∀ u, f.«until» = some u → x.created_at ≤ u) ∧
       (∀ tv ∈ f.tags, matchTagEntry x tv = true)) := by
  unfold matchFilter
  simp only [Bool.and_eq_true, List.all_eq_true]
  rw [optMemB_iff, optMemB_iff, optMemB_iff, optSinceB_iff, optUntilB_iff]
  tauto

/-- Splitting a single-letter tag key `X:v`. -/
theorem key_split (a b x y : String) (ha : a.length = 1) (hb : b.length = 1)
    (h : a ++ ":" ++ x = b ++ ":" ++ y) : a = b ∧ x = y := by
  obtain ⟨ca, hca⟩ := List.length_eq_one.1 (show a.data.length = 1 from ha)
  obtain ⟨cb, hcb⟩ := List.length_eq_one.1 (show b.data.length = 1 from hb)
  have hd : a.data ++ ':' :: x.data = b.data ++ ':' :: y.data := by
    have h2 := congrArg String.data h
    simpa [String.data_append, colon_data] using h2
  rw [hca, hcb] at hd
  simp only [List.cons_append, List.nil_append] at hd
  injection hd with h1 h2
  injection h2 with _ h3
  constructor
  · exact String.ext (by rw [hca, hcb, h1])
  · exact String.ext h3

theorem singleton_key_len (t0 k v : String) (h0 : t0.length = 1) (hk : k.length = 1)
    (h : t0 = k ++ ":" ++ v) : False := by
  rw [h] at h0
  rw [String.length_append, String.length_append] at h0
  have hcl : (":" : String).length = 1 := rfl
  omega

/-- `matchTagEntry` unpacked. -/
theorem matchTagEntry_iff (x : Event) (tv : String × List String) :
    matchTagEntry x tv = true ↔
      ∃ t0 t1 rest, t0 :: t1 :: rest ∈ x.tags ∧ t0 = tv.1 ∧ t1 ∈ tv.2 := by
  unfold matchTagEntry
  rw [List.any_eq_true]
  constructor
  · rintro ⟨t, ht, hp⟩
    rcases t with _ | ⟨t0, _ | ⟨t1, rest⟩⟩
    · simp at hp
    · simp at hp
    · rw [Bool.and_eq_true] at hp
      exact ⟨t0, t1, rest, ht, eq_of_beq hp.1, (contains_iff_mem _ _).1 hp.2⟩
  · rintro ⟨t0, t1, rest, ht, rfl, hmem⟩
    refine ⟨tv.1 :: t1 :: rest, ht, ?_⟩
    rw [Bool.and_eq_true]
    exact ⟨beq_self_eq_true tv.1, (contains_iff_mem _ _).2 hmem⟩

theorem getDay_mono (a b : Nat) (h : a ≤ b) : getDay a ≤ getDay b :=
  Nat.div_le_div_right h

/-- Soundness and completeness of `query`'s narrowing step on a state
satisfying the invariant: every candidate is a stored event whose residual
match implies a full match, and every stored, matching, not-id-tombstoned
event is among the candidates. -/
theorem narrow_spec (cfg : Config) (tnow : Nat) (r : Repo) (f : Filter)
    (hinv : Inv cfg r) (hkeys : (f.tags.map Prod.fst).Nodup)
    (hnow : truthyN f.since = true → truthyN f.«until» = false →
      ∀ w ∈ mapValues r.eventsById, w.created_at ≤ tnow) :
    (∀ x ∈ (narrow tnow r f).1, mapGet r.eventsById x.id = some x ∧
      (matchFilter (narrow tnow r f).2 x = true → matchFilter f x = true)) ∧
    (∀ x ∈ mapValues r.eventsById, matchFilter f x = true →
      ¬(x.created_at < (mapGet r.deletes x.id).getD 0) → x ∈ (narrow tnow r f).1) ∧
    (narrow tnow r f).2.limit = f.limit ∧
    (∀ x, matchFilter f x = true → matchFilter (narrow tnow r f).2 x = true) := by
  obtain ⟨fids, fauth, fkinds, fsince, funtil, flimit, ftags⟩ := f
  rcases fids with _ | ids
  case mk.some =>
    have hn : narrow tnow r ⟨some ids, fauth, fkinds, fsince, funtil, flimit, ftags⟩ =
        (ids.filterMap (fun i => mapGet r.eventsById i),
         ⟨none, fauth, fkinds, fsince, funtil, flimit, ftags⟩) := rfl
    rw [hn]
    refine ⟨?_, ?_, rfl, ?_⟩
    · intro x hx
      rw [List.mem_filterMap] at hx
      obtain ⟨i, hi, hget⟩ := hx
      have hxid : x.id = i := hinv.idKey i x hget
      refine ⟨by rw [hxid]; exact hget, ?_⟩
      intro hres
      rw [matchFilter_iff] at hres ⊢
      obtain ⟨_, h2, h3, h4, h5, h6⟩ := hres
      refine ⟨?_, h2, h3, h4, h5, h6⟩
      intro l hl
      injection hl with hl2
      rw [hxid, ← hl2]
      exact hi
    · intro x hx hm _
      rw [List.mem_filterMap]
      rw [matchFilter_iff] at hm
      exact ⟨x.id, hm.1 ids rfl, hinv.idFaithful x hx⟩
    · intro x hm
      rw [matchFilter_iff] at hm ⊢
      obtain ⟨_, h2, h3, h4, h5, h6⟩ := hm
      exact ⟨fun l hl => by simp at hl, h2, h3, h4, h5, h6⟩
  case mk.none =>
  rcases fauth with _ | as
  case some =>
    have hn : narrow tnow r ⟨none, some as, fkinds, fsince, funtil, flimit, ftags⟩ =
        (uniq (as.map (fun p => (mapGet r.eventsByAuthor p).getD [])).flatten,
         ⟨none, none, fkinds, fsince, funtil, flimit, ftags⟩) := rfl
    rw [hn]
    refine ⟨?_, ?_, rfl, ?_⟩
    · intro x hx
      rw [mem_uniq, List.mem_flatten] at hx
      obtain ⟨lb, hlb, hxl⟩ := hx
      rw [List.mem_map] at hlb
      obtain ⟨q, hq, rfl⟩ := hlb
      obtain ⟨hst, hpk⟩ := hinv.authSound q x hxl
      refine ⟨hst, ?_⟩
      intro hres
      rw [matchFilter_iff] at hres ⊢
      obtain ⟨h1, _, h3, h4, h5, h6⟩ := hres
      refine ⟨h1, ?_, h3, h4, h5, h6⟩
      intro l hl
      injection hl with hl2
      rw [hpk, ← hl2]
      exact hq
    · intro x hx hm hnd
      rw [mem_uniq, List.mem_flatten]
      rw [matchFilter_iff] at hm
      have hpk : x.pubkey ∈ as := hm.2.1 as rfl
      rcases hinv.authIn x hx with hmem | hts
      · exact ⟨(mapGet r.eventsByAuthor x.pubkey).getD [],
          List.mem_map_of_mem _ hpk, hmem⟩
      · exact absurd hts hnd
    · intro x hm
      rw [matchFilter_iff] at hm ⊢
      obtain ⟨h1, _, h3, h4, h5, h6⟩ := hm
      exact ⟨h1, fun l hl => by simp at hl, h3, h4, h5, h6⟩
  case none =>
  by_cases htru : (truthyN fsince || truthyN funtil) = true
  · have hn : narrow tnow r ⟨none, none, fkinds, fsince, funtil, flimit, ftags⟩ =
        (uniq ((List.range' (getDay (orFalsy fsince EPOCH))
            (getDay (orFalsy funtil tnow) + 1 - getDay (orFalsy fsince EPOCH))).map
            (fun d => (mapGet r.eventsByDay d).getD [])).flatten,
         ⟨none, none, fkinds, fsince, funtil, flimit, ftags⟩) := by
      simp only [narrow, htru, if_true]
    rw [hn]
    refine ⟨?_, ?_, rfl, ?_⟩
    · intro x hx
      rw [mem_uniq, List.mem_flatten] at hx
      obtain ⟨lb, hlb, hxl⟩ := hx
      rw [List.mem_map] at hlb
      obtain ⟨d, _, rfl⟩ := hlb
      exact ⟨hinv.daySound d x hxl, fun h => h⟩
    · intro x hx hm hnd
      rw [mem_uniq, List.mem_flatten]
      rw [matchFilter_iff] at hm
      have hlo : getDay (orFalsy fsince EPOCH) ≤ getDay x.created_at := by
        rcases fsince with _ | s
        · exact Nat.zero_le _
        · by_cases hs : s = 0
          · simp only [orFalsy, hs, if_true]
            exact Nat.zero_le _
          · simp only [orFalsy, hs, if_false]
            exact getDay_mono s x.created_at (hm.2.2.2.1 s rfl)
      have hhi : getDay x.created_at ≤ getDay (orFalsy funtil tnow) := by
        rcases funtil with _ | u
        · have hftru : truthyN fsince = true := by
            simpa [truthyN] using htru
          have hbnd := hnow hftru rfl x hx
          exact getDay_mono x.created_at tnow hbnd
        · by_cases hu : u = 0
          · have hx0 : x.created_at ≤ 0 := hu ▸ hm.2.2.2.2.1 u rfl
            have : getDay x.created_at = 0 := by
              have : x.created_at = 0 := by omega
              rw [this]
              rfl
            rw [this]
            exact Nat.zero_le _
          · simp only [orFalsy, hu, if_false]
            exact getDay_mono x.created_at u (hm.2.2.2.2.1 u rfl)
      refine ⟨(mapGet r.eventsByDay (getDay x.created_at)).getD [], ?_, ?_⟩
      · apply List.mem_map_of_mem
        rw [List.mem_range']
        refine ⟨getDay x.created_at - getDay (orFalsy fsince EPOCH), by omega, by omega⟩
      · rcases hinv.dayIn x hx with hmem | hts
        · exact hmem
        · exact absurd hts hnd
    · exact fun _ h => h
  · rcases hfind : List.find? (fun tv => decide (tv.1.length = 1)) ftags with _ | tv
    · have hn : narrow tnow r ⟨none, none, fkinds, fsince, funtil, flimit, ftags⟩ =
          (mapValues r.eventsById,
           ⟨none, none, fkinds, fsince, funtil, flimit, ftags⟩) := by
        simp only [narrow]
        rw [if_neg htru, hfind]
      rw [hn]
      refine ⟨?_, ?_, rfl, ?_⟩
      · intro x hx
        exact ⟨hinv.idFaithful x hx, fun h => h⟩
      · intro x hx _ _
        exact hx
      · exact fun _ h => h
    · have htv1 : tv.1.length = 1 := by
        have := List.find?_some hfind
        simpa using this
      have htvmem : tv ∈ ftags := List.mem_of_find?_eq_some hfind
      have hn : narrow tnow r ⟨none, none, fkinds, fsince, funtil, flimit, ftags⟩ =
          (uniq (tv.2.map (fun v => (mapGet r.eventsByTag (tv.1 ++ ":" ++ v)).getD [])).flatten,
           ⟨none, none, fkinds, fsince, funtil, flimit, eraseTagKey ftags tv.1⟩) := by
        simp only [narrow]
        rw [if_neg htru, hfind]
      rw [hn]
      refine ⟨?_, ?_, rfl, ?_⟩
      · intro x hx
        rw [mem_uniq, List.mem_flatten] at hx
        obtain ⟨lb, hlb, hxl⟩ := hx
        rw [List.mem_map] at hlb
        obtain ⟨v, hv, rfl⟩ := hlb
        obtain ⟨hst, t0, rest, hmt, hlen0, hkey⟩ := hinv.tagSound (tv.1 ++ ":" ++ v) x hxl
        have hmatch_tv : matchTagEntry x tv = true := by
          rcases rest with _ | ⟨t1, rest2⟩
          · exact absurd hkey (fun h => singleton_key_len t0 tv.1 v hlen0 htv1 h)
          · obtain ⟨he1, he2⟩ := key_split t0 tv.1 t1 v hlen0 htv1 hkey
            rw [matchTagEntry_iff]
            exact ⟨t0, t1, rest2, hmt, he1, he2 ▸ hv⟩
        refine ⟨hst, ?_⟩
        intro hres
        rw [matchFilter_iff] at hres ⊢
        obtain ⟨h1, h2, h3, h4, h5, h6⟩ := hres
        refine ⟨h1, h2, h3, h4, h5, ?_⟩
        intro tv2 htv2
        by_cases hsame : tv2.1 = tv.1
        · rw [nodup_keys_eq ftags hkeys tv2 tv htv2 htvmem hsame]
          exact hmatch_tv
        · apply h6
          show tv2 ∈ eraseTagKey ftags tv.1
          unfold eraseTagKey
          rw [List.mem_filter]
          exact ⟨htv2, by simp [hsame]⟩
      · intro x hx hm hnd
        rw [mem_uniq, List.mem_flatten]
        rw [matchFilter_iff] at hm
        have hmtv := hm.2.2.2.2.2 tv htvmem
        rw [matchTagEntry_iff] at hmtv
        obtain ⟨t0, t1, rest, hmt, ht0, ht1⟩ := hmtv
        have hlen0 : t0.length = 1 := by rw [ht0]; exact htv1
        rcases hinv.tagIn x hx t0 (t1 :: rest) hmt hlen0 with hmem | hts
        · refine ⟨(mapGet r.eventsByTag (tv.1 ++ ":" ++ t1)).getD [],
            List.mem_map_of_mem _ ht1, ?_⟩
          have hkeyeq : tagKey (t0 :: t1 :: rest) = tv.1 ++ ":" ++ t1 := by
            rw [tagKey, ht0]
          rw [← hkeyeq]
          exact hmem
        · exact absurd hts hnd
      · intro x2 hm
        rw [matchFilter_iff] at hm ⊢
        obtain ⟨h1, h2, h3, h4, h5, h6⟩ := hm
        refine ⟨h1, h2, h3, h4, h5, ?_⟩
        intro tv2 htv2
        apply h6
        have htv2b : tv2 ∈ eraseTagKey ftags tv.1 := htv2
        unfold eraseTagKey at htv2b
        exact (List.mem_filter.1 htv2b).1

/-- Membership in one filter's evaluation, for a filter without a limit, on
an invariant-satisfying state: exactly the stored, matching, non-tombstoned
events. -/
theorem queryFilter_mem (cfg : Config) (tnow : Nat) (r : Repo) (f : Filter)
    (hinv : Inv cfg r) (hkeys : (f.tags.map Prod.fst).Nodup)
    (hnow : truthyN f.since = true → truthyN f.«until» = false →
      ∀ w ∈ mapValues r.eventsById, w.created_at ≤ tnow)
    (hlim : truthyN f.limit = false) (x : Event) :
    x ∈ queryFilter tnow r false f ↔
      (x ∈ mapValues r.eventsById ∧ matchFilter f x = true ∧ isDeleted r x = false) := by
  obtain ⟨hsound, hcomp, hlimeq, hweak⟩ := narrow_spec cfg tnow r f hinv hkeys hnow
  have hlim2 : truthyN (narrow tnow r f).2.limit = false := by
    rw [hlimeq]
    exact hlim
  unfold queryFilter
  rw [collect_mem_no_limit r false (narrow tnow r f).2 hlim2 (sortDesc (narrow tnow r f).1)
    [] x]
  simp only [List.not_mem_nil, false_or]
  rw [mem_sortDesc]
  constructor
  · rintro ⟨hcand, hdel, hres⟩
    obtain ⟨hst, hrestore⟩ := hsound x hcand
    refine ⟨mapGet_mem_values _ _ _ hst, hrestore hres, ?_⟩
    rcases hdel with h | h
    · simp at h
    · exact h
  · rintro ⟨hx, hm, hd⟩
    refine ⟨?_, Or.inr hd, hweak x hm⟩
    apply hcomp x hx hm
    intro hts
    unfold isDeleted isDeletedById isDeletedByAddress at hd
    simp only [Bool.or_eq_false_iff, decide_eq_false_iff_not] at hd
    exact hd.2 hts

/-- C6: on any reachable state, a query with a single `{since, until}` filter
returns exactly the stored, non-tombstoned events whose `created_at` lies in
the inclusive range, regardless of day-bucket boundaries. -/
theorem C6_since_until_exact (cfg : Config) (es : List Event) (tnow T1 T2 : Nat)
    (hT : T1 ≤ T2) (x : Event) :
    x ∈ query tnow (applyAll cfg es)
        [⟨none, none, none, some T1, some T2, none, []⟩] false ↔
      (x ∈ mapValues (applyAll cfg es).eventsById ∧
       T1 ≤ x.created_at ∧ x.created_at ≤ T2 ∧
       isDeleted (applyAll cfg es) x = false) := by
  have hinv := Inv_applyAll cfg es
  have hq : ∀ y, y ∈ query tnow (applyAll cfg es)
      [⟨none, none, none, some T1, some T2, none, []⟩] false ↔
      y ∈ queryFilter tnow (applyAll cfg es) false
        ⟨none, none, none, some T1, some T2, none, []⟩ := by
    intro y
    unfold query
    rw [mem_uniq]
    simp
  rw [hq]
  rw [queryFilter_mem cfg tnow (applyAll cfg es) _ hinv (by simp)
    (fun hs hu => by simp [truthyN] at hs hu; omega) (by simp [truthyN]) x]
  rw [matchFilter_iff]
  simp only []
  constructor
  · rintro ⟨hx, hm, hd⟩
    exact ⟨hx, hm.2.2.2.1 T1 rfl, hm.2.2.2.2.1 T2 rfl, hd⟩
  · rintro ⟨hx, h1, h2, hd⟩
    refine ⟨hx, ?_, hd⟩
    refine ⟨fun l hl => by simp at hl, fun l hl => by simp at hl, fun l hl => by simp at hl,
      ?_, ?_, by simp⟩
    · intro s hs
      injection hs with hs2
      omega
    · intro u hu
      injection hu with hu2
      omega

/-- Follows the spec's words for the C7 comparison: filtering a full scan of
all stored events by the filter predicate, excluding tombstoned events. -/
def specFullScanFilter (r : Repo) (f : Filter) : List Event :=
  (mapValues r.eventsById).filter (fun e => matchFilter f e && !(isDeleted r e))

/-- C7: on any reachable state, a query whose only filter uses only `ids`
returns exactly what filtering a full scan by the same predicate returns —
same membership, same exclusion of tombstoned events. -/
theorem C7_ids_narrowing_equivalence (cfg : Config) (es : List Event) (tnow : Nat)
    (ids : List String) (x : Event) :
    x ∈ query tnow (applyAll cfg es) [⟨some ids, none, none, none, none, none, []⟩] false ↔
      x ∈ specFullScanFilter (applyAll cfg es) ⟨some ids, none, none, none, none, none, []⟩
    := by
  have hinv := Inv_applyAll cfg es
  have hq : ∀ y, y ∈ query tnow (applyAll cfg es)
      [⟨some ids, none, none, none, none, none, []⟩] false ↔
      y ∈ queryFilter tnow (applyAll cfg es) false
        ⟨some ids, none, none, none, none, none, []⟩ := by
    intro y
    unfold query
    rw [mem_uniq]
    simp
  rw [hq]
  rw [queryFilter_mem cfg tnow (applyAll cfg es) _ hinv (by simp)
    (fun hs => by simp [truthyN] at hs) (by simp [truthyN]) x]
  unfold specFullScanFilter
  rw [List.mem_filter, Bool.and_eq_true, Bool.not_eq_true']

/-- C8: on any reachable state, a query with a single filter carrying
`limit = N ≥ 1` (tag-field letters distinct, as in a JS object, and the clock
not behind the store when an open-ended since-range is used) returns at most
N events; each returned event is a stored, matching, non-tombstoned event,
and every matching non-tombstoned event left out is no newer than any
returned one — the walk keeps the N most recent matches. -/
theorem C8_limit_returns_top_n (cfg : Config) (es : List Event) (tnow : Nat) (f : Filter)
    (N : Nat) (hlim : f.limit = some N) (hN : 1 ≤ N)
    (hkeys : (f.tags.map Prod.fst).Nodup)
    (hnow : truthyN f.since = true → truthyN f.«until» = false →
      ∀ w ∈ mapValues (applyAll cfg es).eventsById, w.created_at ≤ tnow) :
    (query tnow (applyAll cfg es) [f] false).length ≤ N ∧
    ∀ x ∈ query tnow (applyAll cfg es) [f] false,
      (x ∈ mapValues (applyAll cfg es).eventsById ∧ matchFilter f x = true ∧
        isDeleted (applyAll cfg es) x = false) ∧
      ∀ y ∈ mapValues (applyAll cfg es).eventsById, matchFilter f y = true →
        isDeleted (applyAll cfg es) y = false →
        y ∉ query tnow (applyAll cfg es) [f] false → y.created_at ≤ x.created_at := by
  have hinv := Inv_applyAll cfg es
  obtain ⟨hsound, hcomp, hlimeq, hweak⟩ :=
    narrow_spec cfg tnow (applyAll cfg es) f hinv hkeys hnow
  have hchunk : ∀ y, y ∈ query tnow (applyAll cfg es) [f] false ↔
      y ∈ queryFilter tnow (applyAll cfg es) false f := by
    intro y
    unfold query
    rw [mem_uniq]
    simp
  constructor
  · have h1 : (queryFilter tnow (applyAll cfg es) false f).length ≤ N := by
      unfold queryFilter
      refine collect_length_le (applyAll cfg es) false (narrow tnow (applyAll cfg es) f).2
        N ?_ (by omega) _ [] (by simp)
      rw [hlimeq]
      exact hlim
    unfold query
    refine le_trans (uniq_length_le _) ?_
    simp only [List.map_cons, List.map_nil, List.flatten_cons, List.flatten_nil,
      List.append_nil]
    exact h1
  · intro x hx
    have hx2 := (hchunk x).1 hx
    have hxprop : x ∈ mapValues (applyAll cfg es).eventsById ∧ matchFilter f x = true ∧
        isDeleted (applyAll cfg es) x = false := by
      rcases collect_sound (applyAll cfg es) false (narrow tnow (applyAll cfg es) f).2
        _ [] x hx2 with h | ⟨hc, hdel, hres⟩
      · simp at h
      · rw [mem_sortDesc] at hc
        obtain ⟨hst, hrestore⟩ := hsound x hc
        refine ⟨mapGet_mem_values _ _ _ hst, hrestore hres, ?_⟩
        rcases hdel with h | h
        · simp at h
        · exact h
    refine ⟨hxprop, ?_⟩
    intro y hy hym hyd hyn
    have hyn2 : y ∉ queryFilter tnow (applyAll cfg es) false f :=
      fun h => hyn ((hchunk y).2 h)
    have hycand : y ∈ (narrow tnow (applyAll cfg es) f).1 := by
      apply hcomp y hy hym
      intro hts
      unfold isDeleted isDeletedById isDeletedByAddress at hyd
      simp only [Bool.or_eq_false_iff, decide_eq_false_iff_not] at hyd
      exact hyd.2 hts
    have hysort : y ∈ sortDesc (narrow tnow (applyAll cfg es) f).1 :=
      (mem_sortDesc _ _).2 hycand
    have hbreak := collect_break_ge (applyAll cfg es) false
      (narrow tnow (applyAll cfg es) f).2 (sortDesc (narrow tnow (applyAll cfg es) f).1)
      y [] (sortedDesc_sortDesc _) hysort (Or.inr hyd) (hweak y hym) hyn2 x hx2
    rcases hbreak with h | h
    · simp at h
    · exact h

theorem C8_witness :
    (query 1000 (applyAll cfgEx [evY0])
      [⟨none, none, none, none, none, some 1, []⟩] false).length ≤ 1 :=
  (C8_limit_returns_top_n cfgEx [evY0] 1000 ⟨none, none, none, none, none, some 1, []⟩ 1
    rfl (by omega) (by simp) (by intro h; simp [truthyN] at h)).1

theorem C6_witness :
    evB1 ∈ query 999999 (applyAll cfgEx [evA1, evB1])
        [⟨none, none, none, some 50, some 432001, none, []⟩] false ↔
      (evB1 ∈ mapValues (applyAll cfgEx [evA1, evB1]).eventsById ∧
       50 ≤ evB1.created_at ∧ evB1.created_at ≤ 432001 ∧
       isDeleted (applyAll cfgEx [evA1, evB1]) evB1 = false) :=
  C6_since_until_exact cfgEx [evA1, evB1] 999999 50 432001 (by omega) evB1

end Welshman
